import Mathlib

set_option maxRecDepth 100000

/-!
A verification development for the go-shamir repository (Shamir secret
sharing over GF(256)).

Bytes are modelled as `Nat` values below 256, byte slices as `List Nat`,
and fallible Go functions as `Except ShamirErr`.  The GF(256) lookup
tables, field operations, the vectorized slice operations, polynomial
evaluation, Lagrange interpolation, `Split`/`Combine` and the
integrity/secure wrappers are translated from `field.go`, `shamir.go`
and `secure_split_combine.go`.  Randomness (`crypto/rand.Read` filling
the non-constant coefficient buffers in `Split`) is modelled as an
explicit argument `rand`, quantified over in the theorems.
-/

namespace Shamir

/-- Errors of the package (`shamir.go` / the errors file), as an inductive. -/
inductive ShamirErr where
  | emptySecret
  | invalidParts
  | invalidThreshold
  | tooFewParts
  | differentLengths
  | tooShort
  | duplicatePart
  | integrityCheckFailed
  | insufficientShares
  deriving DecidableEq, Repr

/-- One doubling step of the table generator in `buildFieldTables`
(`field.go`): `generator <<= 1; if generator&0x100 != 0 { generator ^= 0x11d }`. -/
def xtimeStep (g : Nat) : Nat :=
  let d := g <<< 1
  if d &&& 0x100 ≠ 0 then d ^^^ 0x11d else d

/-- The generator values written into `tables.exp[0..n-1]` starting from `g`
(`buildFieldTables` in `field.go` starts from `generator := 1`). -/
def expTableCore : Nat → Nat → List Nat
  | 0, _ => []
  | n + 1, g => g :: expTableCore n (xtimeStep g)

/-- The 256-entry exponential table `tables.exp` built by `buildFieldTables`:
entries 0..254 from the doubling loop, and `exp[255] = exp[0]`. -/
def expTable : List Nat :=
  let core := expTableCore 255 1
  core ++ [core.headD 0]

/-- The 256-entry logarithm table `tables.log` built by `buildFieldTables`:
`log[exp[i]] = i` for `i = 0..254` (set inside the same loop), and the
sentinel `log[0] = 255` set at the end. -/
def logTable : List Nat :=
  ((List.range 255).foldl (fun t i => t.set (expTable.getD i 0) i)
    (List.replicate 256 0)).set 0 255

/-- Read access `tables.exp[i]`. -/
def expT (i : Nat) : Nat := expTable.getD i 0

/-- Read access `tables.log[b]`. -/
def logT (b : Nat) : Nat := logTable.getD b 0

/-- `gfAdd` from `field.go`: addition in GF(256) is XOR. -/
def gfAdd (a b : Nat) : Nat := a ^^^ b

/-- `gfMult` from `field.go`: 0 if either operand is 0, otherwise
`exp[(log[a] + log[b]) % 255]`. -/
def gfMult (a b : Nat) : Nat :=
  if a = 0 ∨ b = 0 then 0 else expT ((logT a + logT b) % 255)

/-- `gfDiv` from `field.go`: the Go function panics when `b = 0` (that branch
is modelled as the junk value produced by the sentinel `log[0] = 255`; the
development proves it is never reached from `Combine`), returns 0 when
`a = 0`, and otherwise `exp[(log[a] - log[b] + 255) % 255]` (the Go `int`
arithmetic never goes negative, so it equals the `Nat` expression below). -/
def gfDiv (a b : Nat) : Nat :=
  if a = 0 then 0 else expT ((logT a + 255 - logT b) % 255)

/-- `gfInv` from `field.go`: `exp[255 - log[a]]`; the Go function panics on
`a = 0` (junk value here, never used at 0 in this development). -/
def gfInv (a : Nat) : Nat := expT (255 - logT a)

/-- Go's `copy(dst, src)`: overwrites the prefix of `dst` with `src`,
truncated to `dst`'s length; the tail of `dst` past `src`'s length stays. -/
def listCopy (dst src : List Nat) : List Nat :=
  src.take dst.length ++ dst.drop src.length

/-- The per-byte computation of the general path of `gfMultSlice`
(`field.go`): `if src[i] == 0 { 0 } else { exp[(log[src[i]] + log[scalar]) % 255] }`.
The source processes indices in 8-byte chunks plus a remainder loop; both
loops apply exactly this computation to each index. -/
def gfMultSliceElem (b scalar : Nat) : Nat :=
  if b = 0 then 0 else expT ((logT b + logT scalar) % 255)

/-- `gfMultSlice` from `field.go`, as a function of the source slice: fast
paths for scalar 0 (all zeros) and 1 (copy), otherwise the table path
applied to every byte.  (The Go function writes into an equal-length `dst`,
panicking when the lengths differ; all call sites use equal lengths.) -/
def gfMultSlice (src : List Nat) (scalar : Nat) : List Nat :=
  if scalar = 0 then List.replicate src.length 0
  else if scalar = 1 then src
  else src.map fun b => gfMultSliceElem b scalar

/-- `gfAddSlice` from `field.go`: bytewise XOR of two equal-length slices
(the 8-byte `uint64` chunks XOR the same bytes as the remainder loop). -/
def gfAddSlice (a b : List Nat) : List Nat :=
  List.zipWith (fun x y => x ^^^ y) a b

/-- `gfPolyEval` from `field.go` (Horner's method): 0 for no coefficients,
otherwise seed with the highest-degree coefficient and repeatedly
multiply by `x` and XOR in the next lower coefficient.  The downward
`for` loop of the source is this recursion on the coefficient list. -/
def gfPolyEval : List Nat → Nat → Nat
  | [], _ => 0
  | [c], _ => c
  | c :: c2 :: cs, x => gfAdd (gfMult (gfPolyEval (c2 :: cs) x) x) c

/-- `gfPolyEvalSlice` from `field.go`: the vectorized Horner evaluation.
`copy(dst, coefficients[len-1])` seeds the destination, then each lower
degree multiplies the destination by `x` (`gfMultSlice`) and XORs in that
degree's buffer (`gfAddSlice`); the downward loop is this recursion.
For `coefficients = []` (or an empty `dst`) the source leaves `dst`
unchanged, which the cases below also produce. -/
def gfPolyEvalSlice (dst : List Nat) : List (List Nat) → Nat → List Nat
  | [], _ => dst
  | [c], _ => listCopy dst c
  | c :: c2 :: cs, x =>
    gfAddSlice (gfMultSlice (gfPolyEvalSlice dst (c2 :: cs) x) x) c

/-- The numerator accumulated by `lagrangeInterpolate` (`shamir.go`) for
basis index `i`: the product over `j ≠ i` of `x ^ xCoords[j]`, with the
`i == j` iteration skipped exactly as in the source's inner loop. -/
def lagrangeNumerAt (xs : List Nat) (x : Nat) (i : Nat) : Nat :=
  (List.range xs.length).foldl
    (fun acc j => if j = i then acc else gfMult acc (gfAdd x (xs.getD j 0))) 1

/-- The denominator accumulated by `lagrangeInterpolate` (`shamir.go`) for
basis index `i`: the product over `j ≠ i` of `xCoords[i] ^ xCoords[j]`. -/
def lagrangeDenomAt (xs : List Nat) (i : Nat) : Nat :=
  (List.range xs.length).foldl
    (fun acc j =>
      if j = i then acc else gfMult acc (gfAdd (xs.getD i 0) (xs.getD j 0))) 1

/-- `lagrangeInterpolate` from `shamir.go`: sum over `i` of
`yCoords[i] * (numerator / denominator)`, where a term whose denominator
is 0 is skipped (`if denominator == 0 { continue }`). -/
def lagrangeInterpolate (xs ys : List Nat) (x : Nat) : Nat :=
  (List.range xs.length).foldl
    (fun result i =>
      if lagrangeDenomAt xs i = 0 then result
      else
        gfAdd result
          (gfMult (ys.getD i 0) (gfDiv (lagrangeNumerAt xs x i) (lagrangeDenomAt xs i))))
    0

/-- The duplicate x-coordinate scan of `Combine` (`shamir.go`): the double
loop over `i < j` comparing `xCoords[i]` with `xCoords[j]`. -/
def hasDuplicateXCoord (xs : List Nat) : Bool :=
  (List.range xs.length).any fun i =>
    (List.range xs.length).any fun j => i < j && xs.getD i 0 == xs.getD j 0

/-- `secureZeroBytes` / `secureOverwriteSlice` (secure-memory helpers):
every byte of the buffer is overwritten with 0 (the source's 8-byte
chunked zeroing writes the same bytes as the scalar loop). -/
def secureOverwriteSlice (s : List Nat) : List Nat :=
  List.replicate s.length 0

/-- `Split` from `shamir.go`, with the `crypto/rand` coefficient buffers
passed explicitly as `rand` (the source draws `threshold - 1` random
buffers of length `len(secret)`; the claims quantify over all such
choices).  Validation is inline in the source: empty secret, then
`parts < 2 || parts >= 256`, then `threshold < 2 || threshold > parts`.
Each share `i` is `byte(i+1)` followed by the vectorized polynomial
evaluation at `i+1` into a fresh zero buffer; the final zeroization of
the coefficient buffers has no observable effect on the result. -/
def SplitWith (secret : List Nat) (parts threshold : Int) (rand : List (List Nat)) :
    Except ShamirErr (List (List Nat)) :=
  if secret.length = 0 then .error .emptySecret
  else if parts < 2 ∨ 256 ≤ parts then .error .invalidParts
  else if threshold < 2 ∨ parts < threshold then .error .invalidThreshold
  else
    let coeffs := secret :: rand.take (threshold.toNat - 1)
    .ok ((List.range parts.toNat).map fun i =>
      (i + 1) :: gfPolyEvalSlice (List.replicate secret.length 0) coeffs (i + 1))

/-- `Combine` from `shamir.go`: structural validation (share count, first
share length, equal lengths, duplicate x-coordinates) followed by
per-byte Lagrange interpolation at `x = 0`; the y-coordinate scratch
zeroization has no observable effect on the result. -/
def Combine (parts : List (List Nat)) : Except ShamirErr (List Nat) :=
  if parts.length < 2 then .error .tooFewParts
  else if (parts.headD []).length < 2 then .error .tooShort
  else if parts.any fun p => p.length != (parts.headD []).length then
    .error .differentLengths
  else
    let xCoords := parts.map fun p => p.getD 0 0
    if hasDuplicateXCoord xCoords then .error .duplicatePart
    else
      let secretLen := (parts.headD []).length - 1
      .ok ((List.range secretLen).map fun byteIdx =>
        lagrangeInterpolate xCoords (parts.map fun p => p.getD (byteIdx + 1) 0) 0)

/-- Modelled from the spec: the repository computes share checksums with
`crc32.ChecksumIEEE` from Go's standard library, which is not part of the
repository source; the spec calls it "a standard 32-bit cyclic redundancy
check".  This is the reflected polynomial of the IEEE CRC-32. -/
def crcPoly : Nat := 0xEDB88320

/-- Modelled from the spec: one bit step of the reflected IEEE CRC-32
(shift right by one; XOR the reflected polynomial when the low bit was set). -/
def crcRound (c : Nat) : Nat :=
  if c % 2 = 1 then (c >>> 1) ^^^ crcPoly else c >>> 1

/-- Modelled from the spec: absorbing one data byte into the CRC state. -/
def crcUpdateByte (c b : Nat) : Nat := crcRound^[8] (c ^^^ b)

/-- Modelled from the spec: `crc32.ChecksumIEEE` (Go standard library) -
the standard CRC-32 with initial state and final XOR `0xFFFFFFFF`. -/
def crc32 (data : List Nat) : Nat :=
  (data.foldl crcUpdateByte 0xFFFFFFFF) ^^^ 0xFFFFFFFF

/-- `addIntegrityCheck`: shares shorter than 2 bytes are returned as is;
otherwise the CRC-32 of the payload (everything after the x-coordinate
byte) is appended little-endian as 4 trailing bytes.  The source copies
`share[0]` and the payload into a fresh buffer and writes the 4 checksum
bytes after them, which is the append below. -/
def addIntegrityCheck (share : List Nat) : List Nat :=
  if share.length < 2 then share
  else
    let checksum := crc32 (share.drop 1)
    share ++ [checksum % 256, (checksum >>> 8) % 256,
      (checksum >>> 16) % 256, (checksum >>> 24) % 256]

/-- `validateIntegrityCheck`: shares shorter than 6 bytes are returned
unchanged with no error; otherwise the CRC-32 of `share[1:len-4]` is
compared with the little-endian word formed from the last 4 bytes, and on
success the share minus its 4 checksum bytes is returned (the source
rebuilds `share[0]` followed by the payload, which is `take`). -/
def validateIntegrityCheck (share : List Nat) : Except ShamirErr (List Nat) :=
  if share.length < 6 then .ok share
  else
    let payloadLen := share.length - 4
    let payload := (share.drop 1).take (payloadLen - 1)
    let expected := crc32 payload
    let actual := share.getD payloadLen 0 |||
      (share.getD (payloadLen + 1) 0 <<< 8) |||
      (share.getD (payloadLen + 2) 0 <<< 16) |||
      (share.getD (payloadLen + 3) 0 <<< 24)
    if expected ≠ actual then .error .integrityCheckFailed
    else .ok (share.take payloadLen)

/-- The validation loop of `CombineWithIntegrity`: validate each share in
order, stopping at the first failure. -/
def validateAll : List (List Nat) → Except ShamirErr (List (List Nat))
  | [] => .ok []
  | p :: ps =>
    match validateIntegrityCheck p with
    | .error e => .error e
    | .ok v =>
      match validateAll ps with
      | .error e => .error e
      | .ok vs => .ok (v :: vs)

/-- `SplitWithIntegrity` from `secure_split_combine.go`: `Split`, then
`addIntegrityCheck` on every share. -/
def SplitWithIntegrity (secret : List Nat) (parts threshold : Int)
    (rand : List (List Nat)) : Except ShamirErr (List (List Nat)) :=
  match SplitWith secret parts threshold rand with
  | .error e => .error e
  | .ok shares => .ok (shares.map addIntegrityCheck)

/-- `CombineWithIntegrity` from `secure_split_combine.go`: reject fewer
than 2 shares, validate every share's checksum (first failure wins; the
Go wrapping of the error with the share index is dropped, the underlying
error value is kept), then `Combine` the validated shares. -/
def CombineWithIntegrity (parts : List (List Nat)) : Except ShamirErr (List Nat) :=
  if parts.length < 2 then .error .tooFewParts
  else
    match validateAll parts with
    | .error e => .error e
    | .ok vs => Combine vs

/-- `CombineSecure` from `secure_split_combine.go`: reject with
`ErrInsufficientShares` when `expectedThreshold > 0` and fewer shares
than that are given, then `Combine`; on success every input share buffer
is overwritten with zeros (returned here as the second component, since
Go mutates the caller's buffers in place). -/
def CombineSecure (parts : List (List Nat)) (expectedThreshold : Int) :
    Except ShamirErr (List Nat × List (List Nat)) :=
  if 0 < expectedThreshold ∧ (parts.length : Int) < expectedThreshold then
    .error .insufficientShares
  else
    match Combine parts with
    | .error e => .error e
    | .ok secret => .ok (secret, parts.map secureOverwriteSlice)

/-! ### The field tables, evaluated -/

theorem expTable_eq : expTable = [
  1, 2, 4, 8, 16, 32, 64, 128, 29, 58, 116, 232, 205, 135, 19, 38, 76,
  152, 45, 90, 180, 117, 234, 201, 143, 3, 6, 12, 24, 48, 96, 192, 157,
  39, 78, 156, 37, 74, 148, 53, 106, 212, 181, 119, 238, 193, 159, 35, 70,
  140, 5, 10, 20, 40, 80, 160, 93, 186, 105, 210, 185, 111, 222, 161, 95,
  190, 97, 194, 153, 47, 94, 188, 101, 202, 137, 15, 30, 60, 120, 240,
  253, 231, 211, 187, 107, 214, 177, 127, 254, 225, 223, 163, 91, 182,
  113, 226, 217, 175, 67, 134, 17, 34, 68, 136, 13, 26, 52, 104, 208, 189,
  103, 206, 129, 31, 62, 124, 248, 237, 199, 147, 59, 118, 236, 197, 151,
  51, 102, 204, 133, 23, 46, 92, 184, 109, 218, 169, 79, 158, 33, 66, 132,
  21, 42, 84, 168, 77, 154, 41, 82, 164, 85, 170, 73, 146, 57, 114, 228,
  213, 183, 115, 230, 209, 191, 99, 198, 145, 63, 126, 252, 229, 215, 179,
  123, 246, 241, 255, 227, 219, 171, 75, 150, 49, 98, 196, 149, 55, 110,
  220, 165, 87, 174, 65, 130, 25, 50, 100, 200, 141, 7, 14, 28, 56, 112,
  224, 221, 167, 83, 166, 81, 162, 89, 178, 121, 242, 249, 239, 195, 155,
  43, 86, 172, 69, 138, 9, 18, 36, 72, 144, 61, 122, 244, 245, 247, 243,
  251, 235, 203, 139, 11, 22, 44, 88, 176, 125, 250, 233, 207, 131, 27,
  54, 108, 216, 173, 71, 142, 1] := by rfl

theorem logTable_eq : logTable = [
  255, 0, 1, 25, 2, 50, 26, 198, 3, 223, 51, 238, 27, 104, 199, 75, 4,
  100, 224, 14, 52, 141, 239, 129, 28, 193, 105, 248, 200, 8, 76, 113, 5,
  138, 101, 47, 225, 36, 15, 33, 53, 147, 142, 218, 240, 18, 130, 69, 29,
  181, 194, 125, 106, 39, 249, 185, 201, 154, 9, 120, 77, 228, 114, 166,
  6, 191, 139, 98, 102, 221, 48, 253, 226, 152, 37, 179, 16, 145, 34, 136,
  54, 208, 148, 206, 143, 150, 219, 189, 241, 210, 19, 92, 131, 56, 70,
  64, 30, 66, 182, 163, 195, 72, 126, 110, 107, 58, 40, 84, 250, 133, 186,
  61, 202, 94, 155, 159, 10, 21, 121, 43, 78, 212, 229, 172, 115, 243,
  167, 87, 7, 112, 192, 247, 140, 128, 99, 13, 103, 74, 222, 237, 49, 197,
  254, 24, 227, 165, 153, 119, 38, 184, 180, 124, 17, 68, 146, 217, 35,
  32, 137, 46, 55, 63, 209, 91, 149, 188, 207, 205, 144, 135, 151, 178,
  220, 252, 190, 97, 242, 86, 211, 171, 20, 42, 93, 158, 132, 60, 57, 83,
  71, 109, 65, 162, 31, 45, 67, 216, 183, 123, 164, 118, 196, 23, 73, 236,
  127, 12, 111, 246, 108, 161, 59, 82, 41, 157, 85, 170, 251, 96, 134,
  177, 187, 204, 62, 90, 203, 89, 95, 176, 156, 169, 160, 81, 11, 245, 22,
  235, 122, 117, 44, 215, 79, 174, 213, 233, 230, 231, 173, 232, 116, 214,
  244, 234, 168, 80, 88, 175] := by rfl


/-- Bounds and inversion facts about the tables, certified by evaluation. -/
theorem expT_lt : ∀ i, i < 256 → expT i < 256 := by
  simp only [expT, expTable_eq]; decide

theorem expT_ne_zero : ∀ i, i < 256 → expT i ≠ 0 := by
  simp only [expT, expTable_eq]; decide

theorem logT_lt : ∀ b, b < 256 → b ≠ 0 → logT b < 255 := by
  simp only [logT, logTable_eq]; decide

theorem expT_logT : ∀ b, b < 256 → b ≠ 0 → expT (logT b) = b := by
  simp only [expT, logT, expTable_eq, logTable_eq]; decide

theorem logT_expT : ∀ i, i < 255 → logT (expT i) = i := by
  simp only [expT, logT, expTable_eq, logTable_eq]; decide

theorem expT_zero : expT 0 = 1 := by rfl

theorem logT_one : logT 1 = 0 := by rfl

/-- Each doubling step advances the exponential table by one position. -/
theorem xtime_expT : ∀ i, i < 255 → xtimeStep (expT i) = expT ((i + 1) % 255) := by
  simp only [expT, xtimeStep, expTable_eq]; decide

/-! ### Scalar GF(256) algebra -/

theorem gfMult_zero_left (b : Nat) : gfMult 0 b = 0 := by simp [gfMult]

theorem gfMult_zero_right (a : Nat) : gfMult a 0 = 0 := by simp [gfMult]

theorem gfMult_comm (a b : Nat) : gfMult a b = gfMult b a := by
  simp [gfMult, or_comm, Nat.add_comm]

theorem gfMult_eq_of_ne (ha : a ≠ 0) (hb : b ≠ 0) :
    gfMult a b = expT ((logT a + logT b) % 255) := by
  simp [gfMult, ha, hb]

theorem gfMult_expT (hi : i < 255) (hj : j < 255) :
    gfMult (expT i) (expT j) = expT ((i + j) % 255) := by
  rw [gfMult_eq_of_ne (expT_ne_zero i (by omega)) (expT_ne_zero j (by omega)),
    logT_expT i hi, logT_expT j hj]

theorem gfMult_lt (a b : Nat) : gfMult a b < 256 := by
  by_cases h : a = 0 ∨ b = 0
  · simp [gfMult, h]
  · push_neg at h
    rw [gfMult_eq_of_ne h.1 h.2]
    exact expT_lt _ (by omega)

theorem gfMult_ne_zero (ha : a ≠ 0) (hb : b ≠ 0) : gfMult a b ≠ 0 := by
  rw [gfMult_eq_of_ne ha hb]
  exact expT_ne_zero _ (by omega)

theorem logT_gfMult (ha : a ≠ 0) (hb : b ≠ 0) :
    logT (gfMult a b) = (logT a + logT b) % 255 := by
  rw [gfMult_eq_of_ne ha hb, logT_expT _ (by omega)]

theorem gfMult_one (ha : a < 256) : gfMult a 1 = a := by
  by_cases h : a = 0
  · simp [gfMult, h]
  · have hla := logT_lt a ha h
    rw [gfMult_eq_of_ne h (by omega), logT_one, Nat.add_zero,
      Nat.mod_eq_of_lt hla, expT_logT a ha h]

theorem gfMult_assoc (ha : a < 256) (hb : b < 256) (hc : c < 256) :
    gfMult (gfMult a b) c = gfMult a (gfMult b c) := by
  by_cases h0 : a = 0 ∨ b = 0 ∨ c = 0
  · rcases h0 with h | h | h <;>
      simp [h, gfMult_zero_left, gfMult_zero_right]
  · push_neg at h0
    obtain ⟨ha0, hb0, hc0⟩ := h0
    rw [gfMult_eq_of_ne (gfMult_ne_zero ha0 hb0) hc0,
      gfMult_eq_of_ne ha0 (gfMult_ne_zero hb0 hc0),
      logT_gfMult ha0 hb0, logT_gfMult hb0 hc0]
    congr 1
    omega

/-! ### Doubling-step characterization of multiplication, used for
distributivity of `gfMult` over XOR. -/

theorem xor_shiftLeft_one (a b : Nat) : (a ^^^ b) <<< 1 = (a <<< 1) ^^^ (b <<< 1) := by
  apply Nat.eq_of_testBit_eq
  intro i
  simp only [Nat.testBit_shiftLeft, Nat.testBit_xor]
  cases Decidable.em (1 ≤ i) with
  | inl h => simp [h]
  | inr h => simp [h]

theorem xor_left_comm (a b c : Nat) : a ^^^ (b ^^^ c) = b ^^^ (a ^^^ c) := by
  rw [← Nat.xor_assoc, Nat.xor_comm a b, Nat.xor_assoc]

theorem and_256_ne_iff (d : Nat) : d &&& 0x100 ≠ 0 ↔ d.testBit 8 = true := by
  have h : (0x100 : Nat) = 2 ^ 8 := by norm_num
  rw [h, Nat.and_two_pow]
  cases hb : d.testBit 8 <;> simp [hb]

theorem xtimeStep_xor (a b : Nat) :
    xtimeStep (a ^^^ b) = xtimeStep a ^^^ xtimeStep b := by
  simp only [xtimeStep, xor_shiftLeft_one]
  by_cases h1 : (a <<< 1).testBit 8 <;> by_cases h2 : (b <<< 1).testBit 8 <;>
    simp only [and_256_ne_iff, Nat.testBit_xor, h1, h2, Bool.xor_true, Bool.xor_false,
      Bool.true_xor, Bool.false_xor, Bool.not_true, Bool.not_false, ite_true, ite_false,
      Bool.true_eq_false, Bool.false_eq_true, not_false_eq_true, not_true_eq_false] <;>
    simp [Nat.xor_assoc, Nat.xor_comm, xor_left_comm, Nat.xor_cancel_left]

theorem xtime_iter_xor (k a b : Nat) :
    xtimeStep^[k] (a ^^^ b) = xtimeStep^[k] a ^^^ xtimeStep^[k] b := by
  induction k with
  | zero => rfl
  | succ n ih =>
    rw [Function.iterate_succ_apply', Function.iterate_succ_apply',
      Function.iterate_succ_apply', ih, xtimeStep_xor]

theorem xtime_iter_expT (k : Nat) (hj : j < 255) :
    xtimeStep^[k] (expT j) = expT ((j + k) % 255) := by
  induction k with
  | zero => rw [Function.iterate_zero_apply, Nat.add_zero, Nat.mod_eq_of_lt hj]
  | succ n ih =>
    rw [Function.iterate_succ_apply', ih, xtime_expT _ (by omega)]
    congr 1
    omega

theorem gfMult_eq_iter (ha : a < 256) (ha0 : a ≠ 0) (hb : b < 256) (hb0 : b ≠ 0) :
    gfMult a b = xtimeStep^[logT a] b := by
  have hla := logT_lt a ha ha0
  have hlb := logT_lt b hb hb0
  conv_lhs => rw [← expT_logT a ha ha0, ← expT_logT b hb hb0]
  conv_rhs => rw [← expT_logT b hb hb0]
  rw [gfMult_expT hla hlb, xtime_iter_expT (logT a) hlb, Nat.add_comm]

theorem xor_lt_256 (ha : a < 256) (hb : b < 256) : a ^^^ b < 256 := by
  have h : (256 : Nat) = 2 ^ 8 := by norm_num
  rw [h] at ha hb ⊢
  exact Nat.xor_lt_two_pow ha hb

theorem gfMult_xor (ha : a < 256) (hb : b < 256) (hc : c < 256) :
    gfMult a (b ^^^ c) = gfMult a b ^^^ gfMult a c := by
  by_cases ha0 : a = 0
  · simp [ha0, gfMult_zero_left]
  by_cases hb0 : b = 0
  · simp [hb0, gfMult_zero_right, Nat.zero_xor]
  by_cases hc0 : c = 0
  · simp [hc0, gfMult_zero_right, Nat.xor_zero]
  by_cases hbc : b = c
  · subst hbc
    rw [Nat.xor_self, Nat.xor_self, gfMult_zero_right]
  · have hbc0 : b ^^^ c ≠ 0 := by
      intro h
      exact hbc (Nat.xor_eq_zero.mp h)
    rw [gfMult_eq_iter ha ha0 (xor_lt_256 hb hc) hbc0,
      gfMult_eq_iter ha ha0 hb hb0, gfMult_eq_iter ha ha0 hc hc0, xtime_iter_xor]

theorem gfInv_lt (a : Nat) : gfInv a < 256 :=
  expT_lt _ (by omega)

theorem expT_255 : expT 255 = 1 := by rfl

theorem gfMult_gfInv (ha : a < 256) (ha0 : a ≠ 0) : gfMult a (gfInv a) = 1 := by
  have hla := logT_lt a ha ha0
  rcases Nat.eq_zero_or_pos (logT a) with hl | hl
  · have h1 : gfInv a = 1 := by rw [gfInv, hl, Nat.sub_zero, expT_255]
    have h2 := expT_logT a ha ha0
    rw [hl, expT_zero] at h2
    rw [h1, gfMult_one ha, ← h2]
  · have hlt : 255 - logT a < 255 := by omega
    have hinv0 : expT (255 - logT a) ≠ 0 := expT_ne_zero _ (by omega)
    rw [gfInv, gfMult_eq_of_ne ha0 hinv0, logT_expT _ hlt]
    have h : (logT a + (255 - logT a)) % 255 = 0 := by omega
    rw [h, expT_zero]

theorem gfDiv_eq_gfMult_gfInv (ha : a < 256) (hb : b < 256) (hb0 : b ≠ 0) :
    gfDiv a b = gfMult a (gfInv b) := by
  by_cases ha0 : a = 0
  · simp [ha0, gfDiv, gfMult_zero_left]
  · have hlb := logT_lt b hb hb0
    have hla := logT_lt a ha ha0
    rcases Nat.eq_zero_or_pos (logT b) with hl | hl
    · have h1 : gfInv b = 1 := by rw [gfInv, hl, Nat.sub_zero, expT_255]
      rw [h1, gfMult_one ha, gfDiv, if_neg ha0, hl, Nat.sub_zero]
      have h2 : (logT a + 255) % 255 = logT a := by omega
      rw [h2, expT_logT a ha ha0]
    · have hlt : 255 - logT b < 255 := by omega
      have hinv0 : expT (255 - logT b) ≠ 0 := expT_ne_zero _ (by omega)
      rw [gfDiv, if_neg ha0, gfInv, gfMult_eq_of_ne ha0 hinv0, logT_expT _ hlt]
      congr 1
      omega


/-- The field GF(256) as byte values, with the operations of `field.go`. -/
structure GF where
  val : Nat
  isLt : val < 256

theorem GF.ext {a b : GF} (h : a.val = b.val) : a = b := by
  cases a; cases b; simp_all

instance : DecidableEq GF := fun a b =>
  decidable_of_iff (a.val = b.val) ⟨GF.ext, fun h => congrArg GF.val h⟩

instance : Zero GF := ⟨⟨0, by omega⟩⟩

instance : One GF := ⟨⟨1, by omega⟩⟩

instance : Add GF := ⟨fun a b => ⟨gfAdd a.val b.val, xor_lt_256 a.isLt b.isLt⟩⟩

instance : Mul GF := ⟨fun a b => ⟨gfMult a.val b.val, gfMult_lt _ _⟩⟩

instance : Neg GF := ⟨fun a => a⟩

instance : Inv GF := ⟨fun a => if a.val = 0 then 0 else ⟨gfInv a.val, gfInv_lt _⟩⟩

theorem GF.val_add (a b : GF) : (a + b).val = a.val ^^^ b.val := rfl

theorem GF.val_mul (a b : GF) : (a * b).val = gfMult a.val b.val := rfl

theorem GF.val_zero : (0 : GF).val = 0 := rfl

theorem GF.val_one : (1 : GF).val = 1 := rfl

theorem GF.val_ne_zero {a : GF} (h : a ≠ 0) : a.val ≠ 0 := by
  intro hv
  exact h (GF.ext hv)

instance : CommRing GF where
  nsmul := nsmulRec
  zsmul := zsmulRec
  add_assoc a b c :=
    GF.ext (show (a.val ^^^ b.val) ^^^ c.val = a.val ^^^ (b.val ^^^ c.val) from
      Nat.xor_assoc _ _ _)
  zero_add a := GF.ext (show 0 ^^^ a.val = a.val from Nat.zero_xor _)
  add_zero a := GF.ext (show a.val ^^^ 0 = a.val from Nat.xor_zero _)
  add_comm a b := GF.ext (show a.val ^^^ b.val = b.val ^^^ a.val from Nat.xor_comm _ _)
  neg_add_cancel a := GF.ext (show a.val ^^^ a.val = 0 from Nat.xor_self _)
  mul_assoc a b c :=
    GF.ext (show gfMult (gfMult a.val b.val) c.val = gfMult a.val (gfMult b.val c.val) from
      gfMult_assoc a.isLt b.isLt c.isLt)
  one_mul a := GF.ext (show gfMult 1 a.val = a.val by
    rw [gfMult_comm]; exact gfMult_one a.isLt)
  mul_one a := GF.ext (show gfMult a.val 1 = a.val from gfMult_one a.isLt)
  mul_comm a b :=
    GF.ext (show gfMult a.val b.val = gfMult b.val a.val from gfMult_comm _ _)
  zero_mul a := GF.ext (show gfMult 0 a.val = 0 from gfMult_zero_left _)
  mul_zero a := GF.ext (show gfMult a.val 0 = 0 from gfMult_zero_right _)
  left_distrib a b c :=
    GF.ext (show gfMult a.val (b.val ^^^ c.val) = gfMult a.val b.val ^^^ gfMult a.val c.val from
      gfMult_xor a.isLt b.isLt c.isLt)
  right_distrib a b c := GF.ext (by
    show gfMult (a.val ^^^ b.val) c.val = gfMult a.val c.val ^^^ gfMult b.val c.val
    rw [gfMult_comm (a.val ^^^ b.val), gfMult_comm a.val, gfMult_comm b.val]
    exact gfMult_xor c.isLt a.isLt b.isLt)

instance : Field GF where
  exists_pair_ne := ⟨0, 1, fun h => Nat.zero_ne_one (congrArg GF.val h)⟩
  mul_inv_cancel a h := GF.ext (by
    have hv : a.val ≠ 0 := fun hv => h (GF.ext hv)
    show gfMult a.val (if a.val = 0 then (0 : GF) else ⟨gfInv a.val, gfInv_lt _⟩).val = 1
    rw [if_neg hv]
    exact gfMult_gfInv a.isLt hv)
  inv_zero := rfl
  nnqsmul := _
  nnqsmul_def := fun _ _ => rfl
  qsmul := _
  qsmul_def := fun _ _ => rfl


/-! ### List access helpers -/

theorem getD_lt_256 {xs : List Nat} (h : ∀ x ∈ xs, x < 256) (i : Nat) :
    xs.getD i 0 < 256 := by
  by_cases hi : i < xs.length
  · rw [List.getD_eq_getElem _ _ hi]
    exact h _ (List.getElem_mem hi)
  · rw [List.getD_eq_default _ _ (by omega)]
    omega

theorem listCopy_eq_of_length_eq {dst src : List Nat} (h : src.length = dst.length) :
    listCopy dst src = src := by
  rw [listCopy, ← h, List.take_length, h, List.drop_length, List.append_nil]

theorem length_gfMultSlice (src : List Nat) (scalar : Nat) :
    (gfMultSlice src scalar).length = src.length := by
  rw [gfMultSlice]
  split
  · rw [List.length_replicate]
  · split
    · rfl
    · rw [List.length_map]

theorem length_gfAddSlice (a b : List Nat) :
    (gfAddSlice a b).length = min a.length b.length := by
  rw [gfAddSlice, List.length_zipWith]

theorem gfMultSliceElem_eq_gfMult {scalar : Nat} (hs : scalar ≠ 0) (b : Nat) :
    gfMultSliceElem b scalar = gfMult b scalar := by
  by_cases hb : b = 0 <;> simp [gfMultSliceElem, gfMult, hb, hs]

theorem getD_gfMultSlice {src : List Nat} (hb : ∀ x ∈ src, x < 256) {k : Nat}
    (hk : k < src.length) (scalar : Nat) :
    (gfMultSlice src scalar).getD k 0 = gfMult (src.getD k 0) scalar := by
  rw [gfMultSlice]
  split
  · rename_i h0
    subst h0
    rw [gfMult_zero_right, List.getD_eq_getElem _ _ (by rw [List.length_replicate]; omega),
      List.getElem_replicate]
  · split
    · rename_i h0 h1
      subst h1
      rw [gfMult_one (getD_lt_256 hb k)]
    · rename_i h0 h1
      rw [List.getD_eq_getElem _ _ (by rw [List.length_map]; omega),
        List.getElem_map, gfMultSliceElem_eq_gfMult h0,
        List.getD_eq_getElem _ _ hk]

theorem getD_gfAddSlice {a b : List Nat} {k : Nat} (ha : k < a.length) (hb : k < b.length) :
    (gfAddSlice a b).getD k 0 = a.getD k 0 ^^^ b.getD k 0 := by
  rw [gfAddSlice, List.getD_eq_getElem _ _ (by rw [List.length_zipWith]; omega),
    List.getElem_zipWith, List.getD_eq_getElem _ _ ha, List.getD_eq_getElem _ _ hb]

/-! ### The vectorized polynomial evaluation agrees with the scalar one -/

theorem length_gfPolyEvalSlice (dst : List Nat) (coeffs : List (List Nat)) (x : Nat)
    (hlen : ∀ c ∈ coeffs, c.length = dst.length) :
    (gfPolyEvalSlice dst coeffs x).length = dst.length := by
  induction coeffs with
  | nil => rfl
  | cons c cs ih =>
    match cs with
    | [] =>
      show (listCopy dst c).length = dst.length
      rw [listCopy_eq_of_length_eq (hlen c (by simp))]
      exact hlen c (by simp)
    | c2 :: cs' =>
      show (gfAddSlice (gfMultSlice (gfPolyEvalSlice dst (c2 :: cs') x) x) c).length = dst.length
      have ihl := ih (fun d hd => hlen d (by simp [hd]))
      rw [length_gfAddSlice, length_gfMultSlice, ihl, hlen c (by simp)]
      omega

theorem gfMultSliceElem_lt (b scalar : Nat) : gfMultSliceElem b scalar < 256 := by
  rw [gfMultSliceElem]
  split
  · omega
  · exact expT_lt _ (by omega)

theorem mem_gfMultSlice_lt {src : List Nat} (hb : ∀ y ∈ src, y < 256) (scalar : Nat) :
    ∀ y ∈ gfMultSlice src scalar, y < 256 := by
  intro y hy
  rw [gfMultSlice] at hy
  split at hy
  · rw [List.eq_of_mem_replicate hy]
    omega
  · split at hy
    · exact hb y hy
    · obtain ⟨z, hz, hze⟩ := List.mem_map.mp hy
      rw [← hze]
      exact gfMultSliceElem_lt z scalar

theorem mem_gfAddSlice_lt {a b : List Nat} (ha : ∀ y ∈ a, y < 256)
    (hb : ∀ y ∈ b, y < 256) : ∀ y ∈ gfAddSlice a b, y < 256 := by
  induction a generalizing b with
  | nil => intro y hy; simp [gfAddSlice] at hy
  | cons x xs ih =>
    intro y hy
    match b with
    | [] => simp [gfAddSlice] at hy
    | z :: zs =>
      rw [gfAddSlice, List.zipWith_cons_cons] at hy
      rcases List.mem_cons.mp hy with h | h
      · rw [h]
        exact xor_lt_256 (ha x (by simp)) (hb z (by simp))
      · exact ih (fun y hy => ha y (by simp [hy])) (fun y hy => hb y (by simp [hy])) y h

theorem mem_gfPolyEvalSlice_lt (dst : List Nat) (coeffs : List (List Nat)) (x : Nat)
    (hd : ∀ y ∈ dst, y < 256) (hb : ∀ c ∈ coeffs, ∀ y ∈ c, y < 256) :
    ∀ y ∈ gfPolyEvalSlice dst coeffs x, y < 256 := by
  induction coeffs with
  | nil => exact hd
  | cons c cs ih =>
    match cs with
    | [] =>
      intro y hy
      have hbc := hb c (by simp)
      rcases List.mem_append.mp hy with h | h
      · exact hbc y (List.mem_of_mem_take h)
      · exact hd y (List.mem_of_mem_drop h)
    | c2 :: cs' =>
      exact mem_gfAddSlice_lt
        (mem_gfMultSlice_lt (ih (fun d hd2 => hb d (by simp [hd2]))) x)
        (hb c (by simp))

theorem gfPolyEvalSlice_getD (dst : List Nat) (coeffs : List (List Nat)) (x k : Nat)
    (hne : coeffs ≠ []) (hlen : ∀ c ∈ coeffs, c.length = dst.length)
    (hd : ∀ y ∈ dst, y < 256) (hb : ∀ c ∈ coeffs, ∀ y ∈ c, y < 256)
    (hk : k < dst.length) :
    (gfPolyEvalSlice dst coeffs x).getD k 0
      = gfPolyEval (coeffs.map fun c => c.getD k 0) x := by
  induction coeffs with
  | nil => exact absurd rfl hne
  | cons c cs ih =>
    match cs with
    | [] =>
      show (listCopy dst c).getD k 0 = gfPolyEval [c.getD k 0] x
      rw [listCopy_eq_of_length_eq (hlen c (by simp))]
      rfl
    | c2 :: cs' =>
      have hlen' : ∀ d ∈ c2 :: cs', d.length = dst.length := fun d hd2 => hlen d (by simp [hd2])
      have hb' : ∀ d ∈ c2 :: cs', ∀ y ∈ d, y < 256 := fun d hd2 => hb d (by simp [hd2])
      have ihs := ih (by simp) hlen' hb'
      have hrl : (gfPolyEvalSlice dst (c2 :: cs') x).length = dst.length :=
        length_gfPolyEvalSlice dst (c2 :: cs') x hlen'
      show (gfAddSlice (gfMultSlice (gfPolyEvalSlice dst (c2 :: cs') x) x) c).getD k 0
        = gfPolyEval ((c :: c2 :: cs').map fun d => d.getD k 0) x
      rw [getD_gfAddSlice (by rw [length_gfMultSlice, hrl]; omega)
          (by rw [hlen c (by simp)]; omega),
        getD_gfMultSlice (mem_gfPolyEvalSlice_lt dst (c2 :: cs') x hd hb') (by omega) x,
        ihs]
      rfl

/-! ### Polynomials over GF and Horner evaluation -/

/-- The polynomial with the given list of coefficients, lowest degree first
(the coefficient layout used by `Split` and `gfPolyEval`). -/
noncomputable def polyOf (l : List GF) : Polynomial GF :=
  l.foldr (fun c p => Polynomial.C c + Polynomial.X * p) 0

theorem polyOf_nil : polyOf [] = 0 := rfl

theorem polyOf_cons (c : GF) (l : List GF) :
    polyOf (c :: l) = Polynomial.C c + Polynomial.X * polyOf l := rfl

theorem eval_polyOf_cons (c : GF) (l : List GF) (x : GF) :
    (polyOf (c :: l)).eval x = c + x * (polyOf l).eval x := by
  simp [polyOf_cons]

theorem eval_polyOf_zero (l : List GF) : (polyOf l).eval 0 = l.headD 0 := by
  match l with
  | [] => simp [polyOf_nil]
  | c :: cs => simp [eval_polyOf_cons]

theorem coeff_polyOf_eq_zero (l : List GF) (m : Nat) (h : l.length ≤ m) :
    (polyOf l).coeff m = 0 := by
  induction l generalizing m with
  | nil => simp [polyOf_nil]
  | cons c cs ih =>
    match m with
    | 0 => simp at h
    | m + 1 =>
      rw [polyOf_cons, Polynomial.coeff_add, Polynomial.coeff_X_mul,
        Polynomial.coeff_C, if_neg (by omega), ih m (by simpa using h), zero_add]

theorem degree_polyOf_lt (l : List GF) :
    (polyOf l).degree < (l.length : WithBot ℕ) := by
  rw [Polynomial.degree_lt_iff_coeff_zero]
  intro m hm
  exact coeff_polyOf_eq_zero l m (by exact_mod_cast hm)

theorem gfPolyEval_eq_eval (l : List GF) (x : GF) :
    gfPolyEval (l.map GF.val) x.val = ((polyOf l).eval x).val := by
  induction l with
  | nil => simp [gfPolyEval, polyOf_nil, GF.val_zero]
  | cons c cs ih =>
    match cs with
    | [] =>
      show c.val = ((polyOf [c]).eval x).val
      simp [eval_polyOf_cons, polyOf_nil]
    | c2 :: cs' =>
      show gfAdd (gfMult (gfPolyEval ((c2 :: cs').map GF.val) x.val) x.val) c.val
        = ((polyOf (c :: c2 :: cs')).eval x).val
      rw [ih]
      conv_rhs => rw [eval_polyOf_cons]
      show gfMult (((polyOf (c2 :: cs')).eval x).val) x.val ^^^ c.val
        = (c + x * (polyOf (c2 :: cs')).eval x).val
      rw [GF.val_add, GF.val_mul, gfMult_comm, Nat.xor_comm]

/-! ### Folds over index ranges versus finite sums and products -/

theorem foldl_congr_mem {α β : Type} (L : List α) (f g : β → α → β) (A : β)
    (h : ∀ a ∈ L, ∀ acc, f acc a = g acc a) : L.foldl f A = L.foldl g A := by
  induction L generalizing A with
  | nil => rfl
  | cons a L ih =>
    rw [List.foldl_cons, List.foldl_cons, h a (by simp)]
    exact ih _ (fun b hb acc => h b (by simp [hb]) acc)

theorem foldl_mult_val (L : List Nat) (i : Nat) (g : Nat → GF) (A : GF) :
    L.foldl (fun acc j => if j = i then acc else gfMult acc (g j).val) A.val
      = (L.foldl (fun Acc j => if j = i then Acc else Acc * g j) A).val := by
  induction L generalizing A with
  | nil => rfl
  | cons a L ih =>
    by_cases h : a = i
    · simp only [List.foldl_cons, if_pos h]
      exact ih A
    · simp only [List.foldl_cons, if_neg h]
      rw [← GF.val_mul]
      exact ih (A * g a)

theorem foldl_mul_skip_eq_prod (n i : Nat) (g : Nat → GF) (A : GF) :
    (List.range n).foldl (fun Acc j => if j = i then Acc else Acc * g j) A
      = A * ∏ j ∈ (Finset.range n).erase i, g j := by
  induction n with
  | zero => simp
  | succ n ih =>
    rw [List.range_succ, List.foldl_append, ih]
    by_cases h : n = i
    · subst h
      rw [List.foldl_cons, if_pos rfl, List.foldl_nil, Finset.range_succ,
        Finset.erase_insert Finset.not_mem_range_self,
        Finset.erase_eq_of_not_mem Finset.not_mem_range_self]
    · rw [List.foldl_cons, if_neg h, List.foldl_nil, Finset.range_succ,
        Finset.erase_insert_of_ne h,
        Finset.prod_insert (fun hmem => Finset.not_mem_range_self (Finset.mem_of_mem_erase hmem))]
      ring

theorem foldl_mult_skip_val_prod (n i : Nat) (g : Nat → GF) :
    (List.range n).foldl (fun acc j => if j = i then acc else gfMult acc (g j).val) 1
      = (∏ j ∈ (Finset.range n).erase i, g j).val := by
  have h := foldl_mult_val (List.range n) i g 1
  rw [show (1 : Nat) = (1 : GF).val from rfl, h, foldl_mul_skip_eq_prod, one_mul]

theorem foldl_add_val (L : List Nat) (g : Nat → GF) (A : GF) :
    L.foldl (fun acc j => acc ^^^ (g j).val) A.val
      = (L.foldl (fun Acc j => Acc + g j) A).val := by
  induction L generalizing A with
  | nil => rfl
  | cons a L ih =>
    simp only [List.foldl_cons]
    rw [← GF.val_add]
    exact ih (A + g a)

theorem foldl_add_eq_sum (n : Nat) (g : Nat → GF) (A : GF) :
    (List.range n).foldl (fun Acc j => Acc + g j) A = A + ∑ j ∈ Finset.range n, g j := by
  induction n with
  | zero => simp
  | succ n ih =>
    rw [List.range_succ, List.foldl_append, ih, List.foldl_cons, List.foldl_nil,
      Finset.sum_range_succ, add_assoc]

theorem foldl_add_val_sum (n : Nat) (g : Nat → GF) :
    (List.range n).foldl (fun acc j => acc ^^^ (g j).val) 0
      = (∑ j ∈ Finset.range n, g j).val := by
  have h := foldl_add_val (List.range n) g 0
  rw [show (0 : Nat) = (0 : GF).val from rfl, h, foldl_add_eq_sum, zero_add]

/-! ### The code's Lagrange terms as field expressions -/

theorem GF.val_inv_of_ne {a : GF} (h : a.val ≠ 0) : (a⁻¹).val = gfInv a.val := by
  show (if a.val = 0 then (0 : GF) else ⟨gfInv a.val, gfInv_lt _⟩).val = gfInv a.val
  rw [if_neg h]

theorem GF.neg_eq (a : GF) : -a = a := rfl

theorem GF.sub_eq_add (a b : GF) : a - b = a + b := by
  rw [sub_eq_add_neg, GF.neg_eq]

theorem foldl_mult_skip_val_prod_nat (n i : Nat) (f : Nat → Nat) (hf : ∀ j, f j < 256) :
    (List.range n).foldl (fun acc j => if j = i then acc else gfMult acc (f j)) 1
      = (∏ j ∈ (Finset.range n).erase i, (⟨f j, hf j⟩ : GF)).val :=
  foldl_mult_skip_val_prod n i (fun j => ⟨f j, hf j⟩)

theorem lagrangeDenomAt_val (xs : List Nat) (hxb : ∀ x ∈ xs, x < 256) (i : Nat) :
    lagrangeDenomAt xs i
      = (∏ j ∈ (Finset.range xs.length).erase i,
          ((⟨xs.getD i 0, getD_lt_256 hxb i⟩ : GF) + ⟨xs.getD j 0, getD_lt_256 hxb j⟩)).val := by
  unfold lagrangeDenomAt
  rw [foldl_mult_skip_val_prod_nat xs.length i
    (fun j => gfAdd (xs.getD i 0) (xs.getD j 0))
    (fun j => xor_lt_256 (getD_lt_256 hxb i) (getD_lt_256 hxb j))]
  exact congrArg GF.val (Finset.prod_congr rfl (fun j hj => GF.ext rfl))

theorem lagrangeNumerAt_zero_val (xs : List Nat) (hxb : ∀ x ∈ xs, x < 256) (i : Nat) :
    lagrangeNumerAt xs 0 i
      = (∏ j ∈ (Finset.range xs.length).erase i,
          ((0 : GF) + ⟨xs.getD j 0, getD_lt_256 hxb j⟩)).val := by
  unfold lagrangeNumerAt
  rw [foldl_mult_skip_val_prod_nat xs.length i
    (fun j => gfAdd 0 (xs.getD j 0))
    (fun j => xor_lt_256 (by omega) (getD_lt_256 hxb j))]
  exact congrArg GF.val (Finset.prod_congr rfl (fun j hj => GF.ext rfl))

theorem lagrangeDenomAt_ne_zero (xs : List Nat) (hxb : ∀ x ∈ xs, x < 256) (i : Nat)
    (hi : i < xs.length)
    (hdist : ∀ j k, j < xs.length → k < xs.length → j ≠ k → xs.getD j 0 ≠ xs.getD k 0) :
    lagrangeDenomAt xs i ≠ 0 := by
  rw [lagrangeDenomAt_val xs hxb i]
  intro h
  have hz : (∏ j ∈ (Finset.range xs.length).erase i,
      ((⟨xs.getD i 0, getD_lt_256 hxb i⟩ : GF) + ⟨xs.getD j 0, getD_lt_256 hxb j⟩)) = 0 :=
    GF.ext h
  rw [Finset.prod_eq_zero_iff] at hz
  obtain ⟨j, hj, hj0⟩ := hz
  obtain ⟨hjne, hjlt⟩ := Finset.mem_erase.mp hj
  have hval : xs.getD i 0 ^^^ xs.getD j 0 = 0 := congrArg GF.val hj0
  exact hdist i j hi (Finset.mem_range.mp hjlt) (fun hh => hjne hh.symm)
    (Nat.xor_eq_zero.mp hval)

theorem eval_basis_zero (n : Nat) (v : ℕ → GF) (i : ℕ) :
    (Lagrange.basis (Finset.range n) v i).eval 0
      = (∏ j ∈ (Finset.range n).erase i, (v i + v j))⁻¹
        * ∏ j ∈ (Finset.range n).erase i, ((0 : GF) + v j) := by
  rw [Lagrange.basis, Polynomial.eval_prod, ← Finset.prod_inv_distrib,
    ← Finset.prod_mul_distrib]
  apply Finset.prod_congr rfl
  intro j hj
  rw [Lagrange.basisDivisor, Polynomial.eval_mul, Polynomial.eval_C,
    Polynomial.eval_sub, Polynomial.eval_X, Polynomial.eval_C,
    GF.sub_eq_add, GF.sub_eq_add]

theorem sum_eval_basis_eq (n : Nat) (v r : ℕ → GF) (P : Polynomial GF)
    (hinj : Set.InjOn v (Finset.range n)) (hdeg : P.degree < (n : WithBot ℕ))
    (hr : ∀ i ∈ Finset.range n, r i = P.eval (v i)) :
    ∑ i ∈ Finset.range n, r i * (Lagrange.basis (Finset.range n) v i).eval 0
      = P.eval 0 := by
  have h := Lagrange.eq_interpolate hinj
    (by rw [Finset.card_range]; exact hdeg)
  conv_rhs => rw [h]
  rw [Lagrange.interpolate_apply, Polynomial.eval_finset_sum]
  apply Finset.sum_congr rfl
  intro i hi
  rw [Polynomial.eval_mul, Polynomial.eval_C, hr i hi]

/-- The central reconstruction lemma: on pairwise-distinct byte
x-coordinates, the code's interpolation loop evaluated at 0 produces the
value at 0 of any polynomial of degree below the number of shares that
passes through all the (x, y) points. -/
theorem lagrangeInterpolate_recovers (xs ys : List Nat) (P : Polynomial GF)
    (hxb : ∀ x ∈ xs, x < 256) (hyb : ∀ y ∈ ys, y < 256)
    (hdist : ∀ j k, j < xs.length → k < xs.length → j ≠ k → xs.getD j 0 ≠ xs.getD k 0)
    (hdeg : P.degree < (xs.length : WithBot ℕ))
    (hr : ∀ i, i < xs.length →
      (⟨ys.getD i 0, getD_lt_256 hyb i⟩ : GF)
        = P.eval ⟨xs.getD i 0, getD_lt_256 hxb i⟩) :
    lagrangeInterpolate xs ys 0 = (P.eval 0).val := by
  have hinj : Set.InjOn (fun j => (⟨xs.getD j 0, getD_lt_256 hxb j⟩ : GF))
      (Finset.range xs.length) := by
    intro a ha b hb hab
    by_contra hne
    exact hdist a b (by simpa using ha) (by simpa using hb) hne (congrArg GF.val hab)
  rw [lagrangeInterpolate]
  rw [foldl_congr_mem _ _
    (fun acc i => acc ^^^
      ((⟨ys.getD i 0, getD_lt_256 hyb i⟩ : GF) *
        ((∏ j ∈ (Finset.range xs.length).erase i,
            ((0 : GF) + ⟨xs.getD j 0, getD_lt_256 hxb j⟩)) *
          (∏ j ∈ (Finset.range xs.length).erase i,
            ((⟨xs.getD i 0, getD_lt_256 hxb i⟩ : GF) + ⟨xs.getD j 0, getD_lt_256 hxb j⟩))⁻¹)).val)
    0 ?_]
  · rw [foldl_add_val_sum]
    congr 1
    have := sum_eval_basis_eq xs.length
      (fun j => (⟨xs.getD j 0, getD_lt_256 hxb j⟩ : GF))
      (fun j => (⟨ys.getD j 0, getD_lt_256 hyb j⟩ : GF)) P hinj hdeg
      (fun i hi => hr i (Finset.mem_range.mp hi))
    rw [← this]
    apply Finset.sum_congr rfl
    intro i hi
    rw [eval_basis_zero, mul_comm
      ((∏ j ∈ (Finset.range xs.length).erase i,
        ((⟨xs.getD i 0, getD_lt_256 hxb i⟩ : GF) + ⟨xs.getD j 0, getD_lt_256 hxb j⟩))⁻¹)]
  · intro i hi acc
    have hilt : i < xs.length := by
      rw [List.mem_range] at hi
      exact hi
    have hden := lagrangeDenomAt_ne_zero xs hxb i hilt hdist
    rw [if_neg hden]
    have hdv := lagrangeDenomAt_val xs hxb i
    have hnv := lagrangeNumerAt_zero_val xs hxb i
    congr 1
    show gfMult (ys.getD i 0) (gfDiv (lagrangeNumerAt xs 0 i) (lagrangeDenomAt xs i))
      = gfMult (ys.getD i 0) (_ * _ : GF).val
    congr 1
    rw [hdv, hnv]
    have hDne : (∏ j ∈ (Finset.range xs.length).erase i,
        ((⟨xs.getD i 0, getD_lt_256 hxb i⟩ : GF) + ⟨xs.getD j 0, getD_lt_256 hxb j⟩)).val ≠ 0 := by
      rw [← hdv]
      exact hden
    rw [gfDiv_eq_gfMult_gfInv (GF.isLt _) (GF.isLt _) hDne, ← GF.val_inv_of_ne hDne,
      ← GF.val_mul]

/-! ### Easier algebraic and structural facts -/

theorem gfDiv_gfMult_cancel (ha : a < 256) (hb : b < 256) (hb0 : b ≠ 0) :
    gfDiv (gfMult a b) b = a := by
  have hA : ((⟨a, ha⟩ : GF) * ⟨b, hb⟩).val = gfMult a b := rfl
  have hmul : gfMult a b < 256 := gfMult_lt a b
  rw [gfDiv_eq_gfMult_gfInv hmul hb hb0]
  have hBne : ((⟨b, hb⟩ : GF)).val ≠ 0 := hb0
  have h2 : gfMult (gfMult a b) (gfInv b)
      = (((⟨a, ha⟩ : GF) * ⟨b, hb⟩) * (⟨b, hb⟩ : GF)⁻¹).val := by
    rw [GF.val_mul, GF.val_inv_of_ne hBne, hA]
  rw [h2, mul_inv_cancel_right₀ (fun hz => hb0 (congrArg GF.val hz)) (⟨a, ha⟩ : GF)]

theorem gfPolyEval_at_zero (l : List Nat) (hl : l ≠ []) :
    gfPolyEval l 0 = l.headD 0 := by
  match l with
  | [c] => rfl
  | c :: c2 :: cs =>
    show gfAdd (gfMult (gfPolyEval (c2 :: cs) 0) 0) c = c
    rw [gfMult_zero_right, gfAdd, Nat.zero_xor]

theorem hasDuplicateXCoord_eq_false_iff (xs : List Nat) :
    hasDuplicateXCoord xs = false ↔
      ∀ j k, j < xs.length → k < xs.length → j < k → xs.getD j 0 ≠ xs.getD k 0 := by
  rw [← Bool.not_eq_true, hasDuplicateXCoord]
  simp only [List.any_eq_true, List.mem_range, Bool.and_eq_true, decide_eq_true_eq,
    beq_iff_eq, not_exists, not_and]
  constructor
  · intro h j k hj hk hjk heq
    exact h j hj k hk hjk heq
  · intro h j hj k hk hjk heq
    exact h j k hj hk hjk heq

theorem validateIntegrityCheck_error_eq {share : List Nat} {e : ShamirErr}
    (h : validateIntegrityCheck share = .error e) : e = .integrityCheckFailed := by
  simp only [validateIntegrityCheck] at h
  split at h
  · exact absurd h (by simp)
  · split at h
    · cases h
      rfl
    · exact absurd h (by simp)

theorem validateAll_error_of_mem {parts : List (List Nat)} {share : List Nat} {e : ShamirErr}
    (hmem : share ∈ parts) (herr : validateIntegrityCheck share = .error e) :
    validateAll parts = .error .integrityCheckFailed := by
  induction parts with
  | nil => simp at hmem
  | cons p ps ih =>
    show (match validateIntegrityCheck p with
      | .error e => .error e
      | .ok v =>
        match validateAll ps with
        | .error e => .error e
        | .ok vs => .ok (v :: vs)) = Except.error ShamirErr.integrityCheckFailed
    rcases List.mem_cons.mp hmem with h | h
    · subst h
      rw [herr, validateIntegrityCheck_error_eq herr]
    · cases hp : validateIntegrityCheck p with
      | error e2 => rw [validateIntegrityCheck_error_eq hp]
      | ok v => rw [ih h]

theorem validateAll_ok_of_short {parts : List (List Nat)}
    (h : ∀ p ∈ parts, p.length < 6) : validateAll parts = .ok parts := by
  induction parts with
  | nil => rfl
  | cons p ps ih =>
    show (match validateIntegrityCheck p with
      | .error e => .error e
      | .ok v =>
        match validateAll ps with
        | .error e => .error e
        | .ok vs => .ok (v :: vs)) = Except.ok (p :: ps)
    rw [show validateIntegrityCheck p = .ok p from by
        rw [validateIntegrityCheck]; rw [if_pos (h p (by simp))],
      ih (fun q hq => h q (by simp [hq]))]

/-! ### Unfolding Split and Combine on their success paths -/

theorem SplitWith_eq_ok (secret : List Nat) (parts threshold : Int) (rand : List (List Nat))
    (hsec : secret ≠ []) (hp2 : 2 ≤ parts) (hp255 : parts ≤ 255)
    (ht2 : 2 ≤ threshold) (htp : threshold ≤ parts) :
    SplitWith secret parts threshold rand
      = .ok ((List.range parts.toNat).map fun i =>
          (i + 1) :: gfPolyEvalSlice (List.replicate secret.length 0)
            (secret :: rand.take (threshold.toNat - 1)) (i + 1)) := by
  rw [SplitWith, if_neg (fun h => hsec (List.length_eq_zero.mp h)),
    if_neg (by omega), if_neg (by omega)]

theorem getD_range_map {α : Type} (f : Nat → α) (d : α) {n i : Nat} (hi : i < n) :
    ((List.range n).map f).getD i d = f i := by
  rw [List.getD_eq_getElem _ _ (by simp [hi]), List.getElem_map, List.getElem_range]

theorem map_getD_range (l : List Nat) :
    (List.range l.length).map (fun k => l.getD k 0) = l := by
  apply List.ext_getElem (by simp)
  intro n h1 h2
  rw [List.getElem_map, List.getElem_range, List.getD_eq_getElem _ _ h2]

theorem Combine_eq_ok (parts : List (List Nat))
    (h2 : 2 ≤ parts.length) (hhead : 2 ≤ (parts.headD []).length)
    (hlen : ∀ p ∈ parts, p.length = (parts.headD []).length)
    (hdup : hasDuplicateXCoord (parts.map fun p => p.getD 0 0) = false) :
    Combine parts = .ok ((List.range ((parts.headD []).length - 1)).map fun byteIdx =>
      lagrangeInterpolate (parts.map fun p => p.getD 0 0)
        (parts.map fun p => p.getD (byteIdx + 1) 0) 0) := by
  simp only [Combine]
  rw [if_neg (by omega), if_neg (by omega), if_neg (by
      simp only [List.any_eq_true, bne_iff_ne, not_exists]
      intro p
      simp only [not_and]
      intro hp hne
      exact hne (hlen p hp)), if_neg (by rw [hdup]; simp)]

/-! ### Error characterization of Split (claim C4) and Combine (claim C5) -/

theorem splitWith_error_iff_aux (secret : List Nat) (parts threshold : Int)
    (rand : List (List Nat)) :
    (∃ e, SplitWith secret parts threshold rand = .error e) ↔
      secret = [] ∨ parts < 2 ∨ 255 < parts ∨ threshold < 2 ∨ parts < threshold := by
  rw [SplitWith]
  split_ifs with h1 h2 h3
  · exact ⟨fun _ => Or.inl (List.length_eq_zero.mp h1), fun _ => ⟨_, rfl⟩⟩
  · exact ⟨fun _ => Or.inr (by omega), fun _ => ⟨_, rfl⟩⟩
  · exact ⟨fun _ => Or.inr (by omega), fun _ => ⟨_, rfl⟩⟩
  · constructor
    · rintro ⟨e, he⟩
      cases he
    · intro hR
      exfalso
      rcases hR with h | h
      · exact h1 (by rw [h]; rfl)
      · omega

theorem headD_mem {α : Type} {l : List α} (d : α) (h : l ≠ []) : l.headD d ∈ l := by
  match l with
  | [] => exact absurd rfl h
  | a :: t => simp [List.headD]

theorem combine_error_iff_aux (parts : List (List Nat)) :
    (∃ e, Combine parts = .error e) ↔
      parts.length < 2 ∨ (∃ p ∈ parts, p.length ≠ (parts.headD []).length) ∨
        (∃ p ∈ parts, p.length < 2) ∨
        (∃ j k, j < parts.length ∧ k < parts.length ∧ j < k ∧
          (parts.getD j []).getD 0 0 = (parts.getD k []).getD 0 0) := by
  have hxlen : (parts.map fun p => p.getD 0 0).length = parts.length := by
    rw [List.length_map]
  have hxget : ∀ j, j < parts.length →
      (parts.map fun p => p.getD 0 0).getD j 0 = (parts.getD j []).getD 0 0 := by
    intro j hj
    rw [List.getD_eq_getElem _ _ (by rw [hxlen]; exact hj), List.getElem_map,
      List.getD_eq_getElem _ _ hj]
  have hne_of : 2 ≤ parts.length → parts ≠ [] := by
    intro h hnil
    rw [hnil] at h
    simp at h
  simp only [Combine]
  split_ifs with h1 h2 h3 h4
  · exact ⟨fun _ => Or.inl h1, fun _ => ⟨_, rfl⟩⟩
  · exact ⟨fun _ => Or.inr (Or.inr (Or.inl
      ⟨parts.headD [], headD_mem [] (hne_of (by omega)), by omega⟩)),
      fun _ => ⟨_, rfl⟩⟩
  · refine ⟨fun _ => Or.inr (Or.inl ?_), fun _ => ⟨_, rfl⟩⟩
    obtain ⟨p, hp, hpne⟩ := List.any_eq_true.mp h3
    exact ⟨p, hp, bne_iff_ne.mp hpne⟩
  · refine ⟨fun _ => Or.inr (Or.inr (Or.inr ?_)), fun _ => ⟨_, rfl⟩⟩
    have h4' : ¬ (hasDuplicateXCoord (parts.map fun p => p.getD 0 0) = false) := by
      rw [h4]
      simp
    rw [hasDuplicateXCoord_eq_false_iff] at h4'
    push_neg at h4'
    obtain ⟨j, k, hj, hk, hjk, heq⟩ := h4'
    rw [hxlen] at hj hk
    exact ⟨j, k, hj, hk, hjk, by rw [← hxget j hj, ← hxget k hk, heq]⟩
  · constructor
    · rintro ⟨e, he⟩
      cases he
    · intro hR
      exfalso
      have hlenall : ∀ p ∈ parts, p.length = (parts.headD []).length := by
        intro p hp
        by_contra hne
        exact h3 (List.any_eq_true.mpr ⟨p, hp, bne_iff_ne.mpr hne⟩)
      rcases hR with h | ⟨p, hp, hne⟩ | ⟨p, hp, hlt⟩ | ⟨j, k, hj, hk, hjk, heq⟩
      · exact h1 h
      · exact hne (hlenall p hp)
      · rw [hlenall p hp] at hlt
        omega
      · have hdup : hasDuplicateXCoord (parts.map fun p => p.getD 0 0) = false := by
          rw [← Bool.not_eq_true]
          exact h4
        rw [hasDuplicateXCoord_eq_false_iff] at hdup
        exact hdup j k (by omega) (by omega) hjk (by rw [hxget j hj, hxget k hk]; exact heq)


/-- Lift a list of byte values into GF(256). -/
noncomputable def listToGF (l : List Nat) (h : ∀ y ∈ l, y < 256) : List GF :=
  l.attach.map fun y => ⟨y.1, h y.1 y.2⟩

theorem listToGF_map_val (l : List Nat) (h : ∀ y ∈ l, y < 256) :
    (listToGF l h).map GF.val = l := by
  rw [listToGF, List.map_map]
  exact (List.attach_map_val l id).trans (List.map_id l)

theorem length_listToGF (l : List Nat) (h : ∀ y ∈ l, y < 256) :
    (listToGF l h).length = l.length := by
  rw [listToGF, List.length_map, List.length_attach]

/-- Claim C1 assembly: reconstruction from any subset of at least
`threshold` of the shares of a split returns the secret. -/
theorem combine_split_subset
    (secret : List Nat) (parts threshold : Int) (rand : List (List Nat))
    (shares : List (List Nat)) (sel : List Nat)
    (hsecne : secret ≠ []) (hsecb : ∀ y ∈ secret, y < 256)
    (hp2 : 2 ≤ parts) (hp255 : parts ≤ 255)
    (ht2 : 2 ≤ threshold) (htp : threshold ≤ parts)
    (hrlen : ∀ r ∈ rand, r.length = secret.length)
    (hrb : ∀ r ∈ rand, ∀ y ∈ r, y < 256)
    (hrcount : rand.length = threshold.toNat - 1)
    (hok : SplitWith secret parts threshold rand = .ok shares)
    (hnodup : sel.Nodup) (hselbd : ∀ i ∈ sel, i < parts.toNat)
    (hselcard : threshold.toNat ≤ sel.length) :
    Combine (sel.map fun i => shares.getD i []) = .ok secret := by
  have hL1 : 1 ≤ secret.length := List.length_pos.mpr hsecne
  -- the shares produced by Split
  rw [SplitWith_eq_ok secret parts threshold rand hsecne hp2 hp255 ht2 htp] at hok
  have hshares : shares = (List.range parts.toNat).map fun i =>
      (i + 1) :: gfPolyEvalSlice (List.replicate secret.length 0)
        (secret :: rand.take (threshold.toNat - 1)) (i + 1) :=
    (Except.ok.inj hok).symm
  set coeffs := secret :: rand.take (threshold.toNat - 1) with hcoeffs
  set payload : Nat → List Nat := fun i =>
    gfPolyEvalSlice (List.replicate secret.length 0) coeffs (i + 1) with hpayload
  -- facts about the coefficient buffers
  have hcoeffs_len : ∀ c ∈ coeffs, c.length = (List.replicate secret.length 0).length := by
    intro c hc
    rw [List.length_replicate]
    rcases List.mem_cons.mp hc with h | h
    · rw [h]
    · exact hrlen c (List.mem_of_mem_take h)
  have hcoeffs_b : ∀ c ∈ coeffs, ∀ y ∈ c, y < 256 := by
    intro c hc
    rcases List.mem_cons.mp hc with h | h
    · rw [h]; exact hsecb
    · exact hrb c (List.mem_of_mem_take h)
  have hd0 : ∀ y ∈ List.replicate secret.length 0, y < 256 := by
    intro y hy
    rw [List.eq_of_mem_replicate hy]
    omega
  have hcoeffs_length : coeffs.length = threshold.toNat := by
    rw [hcoeffs, List.length_cons, List.length_take, hrcount]
    omega
  -- facts about the payloads
  have hpayload_len : ∀ i : Nat, (payload i).length = secret.length := by
    intro i
    rw [hpayload]
    rw [length_gfPolyEvalSlice _ _ _ hcoeffs_len, List.length_replicate]
  have hpayload_b : ∀ i : Nat, ∀ y ∈ payload i, y < 256 := fun i =>
    mem_gfPolyEvalSlice_lt _ _ _ hd0 hcoeffs_b
  have hpayload_getD : ∀ i k : Nat, k < secret.length →
      (payload i).getD k 0 = gfPolyEval (coeffs.map fun c => c.getD k 0) (i + 1) := by
    intro i k hk
    rw [hpayload]
    exact gfPolyEvalSlice_getD _ _ _ _ (by rw [hcoeffs]; simp) hcoeffs_len hd0 hcoeffs_b
      (by rw [List.length_replicate]; exact hk)
  -- the selected share list
  have hS : (sel.map fun i => shares.getD i []) = sel.map fun i => (i + 1) :: payload i := by
    apply List.map_congr_left
    intro i hi
    rw [hshares, getD_range_map _ _ (hselbd i hi)]
  rw [hS]
  set S := sel.map fun i => (i + 1) :: payload i with hSdef
  have hm2 : 2 ≤ sel.length := by omega
  have hSlen : S.length = sel.length := by rw [hSdef, List.length_map]
  have hSne : S ≠ [] := by
    intro h
    rw [h] at hSlen
    simp at hSlen
    omega
  have hSmemlen : ∀ p ∈ S, p.length = secret.length + 1 := by
    intro p hp
    obtain ⟨i, _, hie⟩ := List.mem_map.mp hp
    rw [← hie, List.length_cons, hpayload_len i]
  have hheadlen : (S.headD []).length = secret.length + 1 :=
    hSmemlen _ (headD_mem [] hSne)
  -- selected x-coordinates
  have hxmap : (S.map fun p => p.getD 0 0) = sel.map fun i => i + 1 := by
    rw [hSdef, List.map_map]
    rfl
  have hxlen : (S.map fun p => p.getD 0 0).length = sel.length := by
    rw [hxmap, List.length_map]
  have hxget : ∀ j : Nat, j < sel.length →
      (S.map fun p => p.getD 0 0).getD j 0 = sel.getD j 0 + 1 := by
    intro j hj
    rw [hxmap, List.getD_eq_getElem _ _ (by rw [List.length_map]; exact hj),
      List.getElem_map, List.getD_eq_getElem _ _ hj]
  have hxdist : ∀ j k, j < (S.map fun p => p.getD 0 0).length →
      k < (S.map fun p => p.getD 0 0).length → j ≠ k →
      (S.map fun p => p.getD 0 0).getD j 0 ≠ (S.map fun p => p.getD 0 0).getD k 0 := by
    intro j k hj hk hjk
    rw [hxlen] at hj hk
    rw [hxget j hj, hxget k hk]
    intro heq
    have heq2 : sel.getD j 0 = sel.getD k 0 := by omega
    rw [List.getD_eq_getElem _ _ hj, List.getD_eq_getElem _ _ hk] at heq2
    exact hjk ((List.Nodup.getElem_inj_iff hnodup).mp heq2)
  have hxb : ∀ x ∈ S.map fun p => p.getD 0 0, x < 256 := by
    rw [hxmap]
    intro x hx
    obtain ⟨i, hi, hie⟩ := List.mem_map.mp hx
    have := hselbd i hi
    omega
  -- run Combine
  rw [Combine_eq_ok S (by omega) (by omega)
    (fun p hp => by rw [hSmemlen p hp, hheadlen])
    (by
      rw [hasDuplicateXCoord_eq_false_iff]
      intro j k hj hk hjk
      exact hxdist j k hj hk (by omega))]
  rw [hheadlen]
  have hLsub : secret.length + 1 - 1 = secret.length := by omega
  rw [hLsub]
  -- each byte position reconstructs its secret byte
  have hbyte : ∀ k, k < secret.length →
      lagrangeInterpolate (S.map fun p => p.getD 0 0)
        (S.map fun p => p.getD (k + 1) 0) 0 = secret.getD k 0 := by
    intro k hk
    have hyb : ∀ y ∈ S.map fun p => p.getD (k + 1) 0, y < 256 := by
      intro y hy
      obtain ⟨p, hp, hpe⟩ := List.mem_map.mp hy
      obtain ⟨i, _, hie⟩ := List.mem_map.mp hp
      rw [← hpe, ← hie]
      show ((i + 1) :: payload i).getD (k + 1) 0 < 256
      exact getD_lt_256 (hpayload_b i) k
    have hcolb : ∀ y ∈ coeffs.map fun c => c.getD k 0, y < 256 := by
      intro y hy
      obtain ⟨c, hc, hce⟩ := List.mem_map.mp hy
      rw [← hce]
      exact getD_lt_256 (hcoeffs_b c hc) k
    have hyget : ∀ j : Nat, (hj : j < sel.length) →
        (S.map fun p => p.getD (k + 1) 0).getD j 0 = (payload sel[j]).getD k 0 := by
      intro j hj
      rw [List.getD_eq_getElem _ _ (by rw [List.length_map, hSlen]; exact hj)]
      simp only [hSdef, List.getElem_map, List.getD_cons_succ]
    have hcolG_len : (listToGF (coeffs.map fun c => c.getD k 0) hcolb).length
        = threshold.toNat := by
      rw [length_listToGF, List.length_map, hcoeffs_length]
    rw [lagrangeInterpolate_recovers (S.map fun p => p.getD 0 0)
      (S.map fun p => p.getD (k + 1) 0)
      (polyOf (listToGF (coeffs.map fun c => c.getD k 0) hcolb))
      hxb hyb hxdist
      (lt_of_lt_of_le (degree_polyOf_lt _)
        (by
          rw [hcolG_len, hxlen]
          exact_mod_cast hselcard))
      (by
        intro i hi
        rw [hxlen] at hi
        apply GF.ext
        show (S.map fun p => p.getD (k + 1) 0).getD i 0
          = (Polynomial.eval ⟨(S.map fun p => p.getD 0 0).getD i 0, _⟩
              (polyOf (listToGF (coeffs.map fun c => c.getD k 0) hcolb))).val
        rw [hyget i hi, hpayload_getD sel[i] k hk]
        have hev := gfPolyEval_eq_eval (listToGF (coeffs.map fun c => c.getD k 0) hcolb)
          ⟨(S.map fun p => p.getD 0 0).getD i 0, getD_lt_256 hxb i⟩
        rw [listToGF_map_val] at hev
        rw [← hev]
        show gfPolyEval _ (sel[i] + 1) = gfPolyEval _ ((S.map fun p => p.getD 0 0).getD i 0)
        rw [hxget i hi, List.getD_eq_getElem _ _ hi])]
    -- the polynomial at 0 is the secret byte
    have hev0 := gfPolyEval_eq_eval (listToGF (coeffs.map fun c => c.getD k 0) hcolb) 0
    rw [listToGF_map_val] at hev0
    rw [← hev0]
    show gfPolyEval (coeffs.map fun c => c.getD k 0) 0 = secret.getD k 0
    rw [gfPolyEval_at_zero _ (by rw [hcoeffs]; simp)]
    rw [hcoeffs]
    rfl
  rw [List.map_congr_left (fun k hk => hbyte k (List.mem_range.mp hk))]
  rw [map_getD_range secret]

/-! ### CRC-32 facts: bounds, linearity, and injectivity under a
single-byte change -/

theorem xor_shiftRight_one (a b : Nat) :
    (a ^^^ b) >>> 1 = (a >>> 1) ^^^ (b >>> 1) := by
  apply Nat.eq_of_testBit_eq
  intro i
  simp [Nat.testBit_shiftRight, Nat.testBit_xor]

theorem crcPoly_lt : crcPoly < 2 ^ 32 := by norm_num [crcPoly]

theorem crcPoly_testBit31 : crcPoly.testBit 31 = true := by decide

theorem crcRound_lt {c : Nat} (h : c < 2 ^ 32) : crcRound c < 2 ^ 32 := by
  have h1 : c >>> 1 < 2 ^ 32 := by
    rw [Nat.shiftRight_one]
    omega
  rw [crcRound]
  split
  · exact Nat.xor_lt_two_pow h1 crcPoly_lt
  · exact h1

theorem crcRound_xor (a b : Nat) :
    crcRound (a ^^^ b) = crcRound a ^^^ crcRound b := by
  simp only [crcRound, xor_shiftRight_one]
  have hpar : (a ^^^ b) % 2 = (a + b) % 2 := Nat.xor_mod_two_eq
  rcases Nat.mod_two_eq_zero_or_one a with ha | ha <;>
    rcases Nat.mod_two_eq_zero_or_one b with hb | hb
  · rw [if_neg (by omega), if_neg (by omega), if_neg (by omega)]
  · rw [if_pos (by omega), if_neg (by omega), if_pos (by omega)]
    simp [Nat.xor_assoc, Nat.xor_comm, xor_left_comm, Nat.xor_cancel_left]
  · rw [if_pos (by omega), if_pos (by omega), if_neg (by omega)]
    simp [Nat.xor_assoc, Nat.xor_comm, xor_left_comm, Nat.xor_cancel_left]
  · rw [if_neg (by omega), if_pos (by omega), if_pos (by omega)]
    simp [Nat.xor_assoc, Nat.xor_comm, xor_left_comm, Nat.xor_cancel_left]

theorem crcRound_ne_zero {c : Nat} (h0 : c ≠ 0) (h : c < 2 ^ 32) : crcRound c ≠ 0 := by
  rw [crcRound]
  split
  · rename_i hodd
    intro hz
    have hb : ((c >>> 1) ^^^ crcPoly).testBit 31 = true := by
      rw [Nat.testBit_xor, Nat.testBit_lt_two_pow (x := c >>> 1)
        (by rw [Nat.shiftRight_one]; omega), crcPoly_testBit31]
      rfl
    rw [hz, Nat.zero_testBit] at hb
    cases hb
  · rename_i heven
    rw [Nat.shiftRight_one]
    omega

theorem crcIter_lt (k : Nat) {c : Nat} (h : c < 2 ^ 32) : crcRound^[k] c < 2 ^ 32 := by
  induction k generalizing c with
  | zero => exact h
  | succ n ih => rw [Function.iterate_succ_apply]; exact ih (crcRound_lt h)

theorem crcIter_ne_zero (k : Nat) {c : Nat} (h0 : c ≠ 0) (h : c < 2 ^ 32) :
    crcRound^[k] c ≠ 0 := by
  induction k generalizing c with
  | zero => exact h0
  | succ n ih =>
    rw [Function.iterate_succ_apply]
    exact ih (crcRound_ne_zero h0 h) (crcRound_lt h)

theorem crcIter_xor (k a b : Nat) :
    crcRound^[k] (a ^^^ b) = crcRound^[k] a ^^^ crcRound^[k] b := by
  induction k generalizing a b with
  | zero => rfl
  | succ n ih =>
    rw [Function.iterate_succ_apply, Function.iterate_succ_apply,
      Function.iterate_succ_apply, crcRound_xor, ih]

theorem crcUpdateByte_lt {c b : Nat} (hc : c < 2 ^ 32) (hb : b < 2 ^ 32) :
    crcUpdateByte c b < 2 ^ 32 :=
  crcIter_lt 8 (Nat.xor_lt_two_pow hc hb)

theorem crcUpdateByte_state_ne {c1 c2 : Nat} (b : Nat) (hne : c1 ≠ c2)
    (h1 : c1 < 2 ^ 32) (h2 : c2 < 2 ^ 32) (hb : b < 2 ^ 32) :
    crcUpdateByte c1 b ≠ crcUpdateByte c2 b := by
  intro h
  have hx : crcUpdateByte c1 b ^^^ crcUpdateByte c2 b = 0 := by
    rw [h, Nat.xor_self]
  rw [crcUpdateByte, crcUpdateByte, ← crcIter_xor] at hx
  have harg : (c1 ^^^ b) ^^^ (c2 ^^^ b) = c1 ^^^ c2 := by
    simp [Nat.xor_assoc, Nat.xor_comm, xor_left_comm, Nat.xor_cancel_left]
  rw [harg] at hx
  exact crcIter_ne_zero 8 (fun hz => hne (Nat.xor_eq_zero.mp hz))
    (Nat.xor_lt_two_pow h1 h2) hx

theorem crcUpdateByte_byte_ne {b1 b2 : Nat} (c : Nat) (hne : b1 ≠ b2)
    (hc : c < 2 ^ 32) (h1 : b1 < 2 ^ 32) (h2 : b2 < 2 ^ 32) :
    crcUpdateByte c b1 ≠ crcUpdateByte c b2 := by
  intro h
  have hx : crcUpdateByte c b1 ^^^ crcUpdateByte c b2 = 0 := by
    rw [h, Nat.xor_self]
  rw [crcUpdateByte, crcUpdateByte, ← crcIter_xor] at hx
  have harg : (c ^^^ b1) ^^^ (c ^^^ b2) = b1 ^^^ b2 := by
    simp [Nat.xor_assoc, Nat.xor_comm, xor_left_comm, Nat.xor_cancel_left]
  rw [harg] at hx
  exact crcIter_ne_zero 8 (fun hz => hne (Nat.xor_eq_zero.mp hz))
    (Nat.xor_lt_two_pow h1 h2) hx

theorem crcFold_lt (data : List Nat) (hb : ∀ x ∈ data, x < 2 ^ 32) {c : Nat}
    (hc : c < 2 ^ 32) : data.foldl crcUpdateByte c < 2 ^ 32 := by
  induction data generalizing c with
  | nil => exact hc
  | cons a t ih =>
    rw [List.foldl_cons]
    exact ih (fun x hx => hb x (by simp [hx])) (crcUpdateByte_lt hc (hb a (by simp)))

theorem crcFold_ne (data : List Nat) (hb : ∀ x ∈ data, x < 2 ^ 32) {c1 c2 : Nat}
    (hne : c1 ≠ c2) (h1 : c1 < 2 ^ 32) (h2 : c2 < 2 ^ 32) :
    data.foldl crcUpdateByte c1 ≠ data.foldl crcUpdateByte c2 := by
  induction data generalizing c1 c2 with
  | nil => exact hne
  | cons a t ih =>
    rw [List.foldl_cons, List.foldl_cons]
    exact ih (fun x hx => hb x (by simp [hx]))
      (crcUpdateByte_state_ne a hne h1 h2 (hb a (by simp)))
      (crcUpdateByte_lt h1 (hb a (by simp))) (crcUpdateByte_lt h2 (hb a (by simp)))

theorem crc32_lt (data : List Nat) (hb : ∀ x ∈ data, x < 2 ^ 32) :
    crc32 data < 2 ^ 32 := by
  rw [crc32]
  exact Nat.xor_lt_two_pow (crcFold_lt data hb (by norm_num)) (by norm_num)

theorem crc32_single_byte_ne (u t : List Nat) {a b : Nat}
    (hu : ∀ x ∈ u, x < 2 ^ 32) (ht : ∀ x ∈ t, x < 2 ^ 32)
    (ha : a < 2 ^ 32) (hb : b < 2 ^ 32) (hab : a ≠ b) :
    crc32 (u ++ a :: t) ≠ crc32 (u ++ b :: t) := by
  rw [crc32, crc32]
  intro h
  have h2 : (u ++ a :: t).foldl crcUpdateByte 0xFFFFFFFF
      = (u ++ b :: t).foldl crcUpdateByte 0xFFFFFFFF := by
    have := congrArg (fun z => z ^^^ 0xFFFFFFFF) h
    simpa [Nat.xor_assoc, Nat.xor_self] using this
  rw [List.foldl_append, List.foldl_append, List.foldl_cons, List.foldl_cons] at h2
  have hs : u.foldl crcUpdateByte 0xFFFFFFFF < 2 ^ 32 :=
    crcFold_lt u hu (by norm_num)
  exact crcFold_ne t ht
    (crcUpdateByte_byte_ne _ hab hs ha hb)
    (crcUpdateByte_lt hs ha) (crcUpdateByte_lt hs hb) h2

/-! ### Little-endian 4-byte decoding -/

theorem lor_shiftLeft_eq_add {a : Nat} (b k : Nat) (ha : a < 2 ^ k) :
    a ||| (b <<< k) = a + b * 2 ^ k := by
  apply Nat.eq_of_testBit_eq
  intro j
  rw [Nat.testBit_lor, Nat.testBit_shiftLeft]
  have hsum : a + b * 2 ^ k = 2 ^ k * b + a := by ring
  rw [hsum, Nat.testBit_mul_pow_two_add b ha j]
  by_cases hj : j < k
  · rw [if_pos hj]
    have hnge : ¬ (j ≥ k) := by omega
    simp [hnge]
  · rw [if_neg hj]
    have hge : j ≥ k := by omega
    have hza : a.testBit j = false :=
      Nat.testBit_lt_two_pow (lt_of_lt_of_le ha (Nat.pow_le_pow_right (by omega) (by omega)))
    simp [hge, hza]

theorem decode4_eq (b0 b1 b2 b3 : Nat) (h0 : b0 < 256) (h1 : b1 < 256)
    (h2 : b2 < 256) (h3 : b3 < 256) :
    b0 ||| b1 <<< 8 ||| b2 <<< 16 ||| b3 <<< 24
      = b0 + b1 * 256 + b2 * 65536 + b3 * 16777216 := by
  rw [lor_shiftLeft_eq_add b1 8 (by omega)]
  rw [lor_shiftLeft_eq_add b2 16 (by omega)]
  rw [lor_shiftLeft_eq_add b3 24 (by omega)]
  norm_num

theorem decode4_encode (c : Nat) (h : c < 2 ^ 32) :
    c % 256 ||| ((c >>> 8) % 256) <<< 8 ||| ((c >>> 16) % 256) <<< 16 |||
        ((c >>> 24) % 256) <<< 24 = c := by
  rw [decode4_eq _ _ _ _ (by omega) (by omega) (by omega) (by omega)]
  rw [Nat.shiftRight_eq_div_pow, Nat.shiftRight_eq_div_pow, Nat.shiftRight_eq_div_pow]
  norm_num
  omega

/-! ### Mutating any byte after the x-coordinate of an
integrity-checked share is detected -/

theorem addIntegrityCheck_eq (base : List Nat) (h : 2 ≤ base.length) :
    addIntegrityCheck base = base ++
      [crc32 (base.drop 1) % 256, (crc32 (base.drop 1) >>> 8) % 256,
        (crc32 (base.drop 1) >>> 16) % 256, (crc32 (base.drop 1) >>> 24) % 256] := by
  rw [addIntegrityCheck, if_neg (by omega)]

theorem validateIntegrityCheck_mutated (base : List Nat) (k w : Nat)
    (hlen : 2 ≤ base.length) (hb : ∀ y ∈ base, y < 256)
    (hk1 : 1 ≤ k) (hk : k < base.length + 4) (hw : w < 256)
    (hne : w ≠ (addIntegrityCheck base).getD k 0) :
    validateIntegrityCheck ((addIntegrityCheck base).set k w)
      = .error .integrityCheckFailed := by
  have hdropb : ∀ y ∈ base.drop 1, y < 2 ^ 32 := by
    intro y hy
    have := hb y (List.mem_of_mem_drop hy)
    omega
  set c := crc32 (base.drop 1) with hc
  have hc32 : c < 2 ^ 32 := crc32_lt _ hdropb
  set cb : List Nat := [c % 256, (c >>> 8) % 256, (c >>> 16) % 256, (c >>> 24) % 256]
    with hcb
  have hich : addIntegrityCheck base = base ++ cb := addIntegrityCheck_eq base hlen
  rw [hich]
  have hcperc : ∀ n : Nat, (c >>> n) % 256 < 256 := fun n => by omega
  have hcblen : cb.length = 4 := rfl
  have hmlen : ((base ++ cb).set k w).length = base.length + 4 := by
    rw [List.length_set, List.length_append, hcblen]
  simp only [validateIntegrityCheck]
  rw [if_neg (by omega)]
  rw [if_pos ?hmain]
  case hmain =>
    rw [hmlen]
    have hsub4 : base.length + 4 - 4 = base.length := by omega
    rw [hsub4]
    by_cases hcase : k < base.length
    -- payload byte mutated: the recomputed checksum changes
    · have hmset : (base ++ cb).set k w = base.set k w ++ cb := by
        rw [List.set_append, if_pos hcase]
      rw [hmset]
      have hdrop : (base.set k w ++ cb).drop 1 = (base.set k w).drop 1 ++ cb :=
        List.drop_append_of_le_length (by rw [List.length_set]; omega)
      rw [hdrop]
      have htake : ((base.set k w).drop 1 ++ cb).take (base.length - 1)
          = (base.set k w).drop 1 :=
        List.take_left' (by rw [List.length_drop, List.length_set])
      rw [htake]
      have hsetdrop : (base.set k w).drop 1 = (base.drop 1).set (k - 1) w := by
        rw [List.drop_set, if_neg (by omega)]
      rw [hsetdrop]
      -- the four checksum bytes are unchanged
      have hget : ∀ j : Nat, j < 4 →
          (base.set k w ++ cb).getD (base.length + j) 0 = cb.getD j 0 := by
        intro j hj
        rw [List.getD_eq_getElem _ _ (by rw [List.length_append, List.length_set]; omega),
          List.getElem_append_right (by rw [List.length_set]; omega),
          List.getD_eq_getElem _ _ (by omega)]
        congr 1
        rw [List.length_set]
        omega
      have hget0 := hget 0 (by omega)
      rw [Nat.add_zero] at hget0
      rw [hget0, hget 1 (by omega), hget 2 (by omega), hget 3 (by omega)]
      have hdec : cb.getD 0 0 ||| cb.getD 1 0 <<< 8 ||| cb.getD 2 0 <<< 16 |||
          cb.getD 3 0 <<< 24 = c := by
        show c % 256 ||| ((c >>> 8) % 256) <<< 8 ||| ((c >>> 16) % 256) <<< 16 |||
          ((c >>> 24) % 256) <<< 24 = c
        exact decode4_encode c hc32
      rw [hdec]
      -- the mutated payload has a different CRC
      have hk1lt : k - 1 < (base.drop 1).length := by
        rw [List.length_drop]
        omega
      have hold : (base.drop 1)[k - 1] = base.getD k 0 := by
        rw [List.getElem_drop, List.getD_eq_getElem _ _ (by omega)]
        congr 1
        omega
      have hsplit : base.drop 1 = ((base.drop 1).take (k - 1)) ++
          ((base.drop 1)[k - 1] :: (base.drop 1).drop k) := by
        conv_lhs => rw [← List.take_append_drop (k - 1) (base.drop 1)]
        congr 1
        rw [List.drop_eq_getElem_cons hk1lt]
        congr 2
        omega
      have hsplit2 : (base.drop 1).set (k - 1) w = ((base.drop 1).take (k - 1)) ++
          (w :: (base.drop 1).drop k) := by
        rw [List.set_eq_take_append_cons_drop, if_pos hk1lt]
        congr 3
        omega
      have hwne : (base.drop 1)[k - 1] ≠ w := by
        rw [hold]
        intro hcontra
        apply hne
        rw [hich, List.getD_eq_getElem _ _ (by rw [List.length_append, hcblen]; omega),
          List.getElem_append_left hcase, ← List.getD_eq_getElem _ _ hcase, hcontra]
      intro hfalse
      rw [hsplit2] at hfalse
      conv_rhs at hfalse => rw [hc, hsplit]
      exact crc32_single_byte_ne ((base.drop 1).take (k - 1)) ((base.drop 1).drop k)
        (fun y hy => hdropb y (List.mem_of_mem_take hy))
        (fun y hy => hdropb y (List.mem_of_mem_drop hy))
        (by omega)
        (by
          have := hb (base.drop 1)[k - 1] (List.mem_of_mem_drop (List.getElem_mem hk1lt))
          omega)
        (fun hcontra => hwne hcontra.symm) hfalse
    -- checksum byte mutated: the stored checksum changes
    · have hmset : (base ++ cb).set k w = base ++ cb.set (k - base.length) w := by
        rw [List.set_append, if_neg hcase]
      rw [hmset]
      have hdrop : (base ++ cb.set (k - base.length) w).drop 1
          = base.drop 1 ++ cb.set (k - base.length) w :=
        List.drop_append_of_le_length (by omega)
      rw [hdrop]
      have htake : (base.drop 1 ++ cb.set (k - base.length) w).take (base.length - 1)
          = base.drop 1 :=
        List.take_left' (by rw [List.length_drop])
      rw [htake, ← hc]
      set j := k - base.length with hj
      have hj4 : j < 4 := by omega
      have hget : ∀ i : Nat, i < 4 →
          (base ++ cb.set j w).getD (base.length + i) 0 = (cb.set j w).getD i 0 := by
        intro i hi
        rw [List.getD_eq_getElem _ _
            (by rw [List.length_append, List.length_set, hcblen]; omega),
          List.getElem_append_right (by omega),
          List.getD_eq_getElem _ _ (by rw [List.length_set, hcblen]; omega)]
        congr 1
        omega
      have hget0 := hget 0 (by omega)
      rw [Nat.add_zero] at hget0
      rw [hget0, hget 1 (by omega), hget 2 (by omega), hget 3 (by omega)]
      have hgset : ∀ i : Nat, i < 4 → (cb.set j w).getD i 0
          = if i = j then w else cb.getD i 0 := by
        intro i hi
        have hilen : i < (cb.set j w).length := by
          rw [List.length_set, hcblen]
          omega
        by_cases hij : i = j
        · subst hij
          rw [if_pos rfl, List.getD_eq_getElem _ _ hilen]
          exact List.getElem_set_self hilen
        · rw [if_neg hij, List.getD_eq_getElem _ _ hilen,
            List.getElem_set_ne (fun hh => hij hh.symm)]
          rw [List.getD_eq_getElem _ _ (by rw [hcblen]; omega)]
      have hbytene : w ≠ cb.getD j 0 := by
        intro hcontra
        apply hne
        rw [hich, List.getD_eq_getElem _ _ (by rw [List.length_append, hcblen]; omega),
          List.getElem_append_right (by omega), ← List.getD_eq_getElem _ _ (by omega),
          hcontra]
      rw [hgset 0 (by omega), hgset 1 (by omega), hgset 2 (by omega), hgset 3 (by omega)]
      have hcb0 : cb.getD 0 0 = c % 256 := rfl
      have hcb1 : cb.getD 1 0 = (c >>> 8) % 256 := rfl
      have hcb2 : cb.getD 2 0 = (c >>> 16) % 256 := rfl
      have hcb3 : cb.getD 3 0 = (c >>> 24) % 256 := rfl
      intro hfalse
      interval_cases j
      · rw [if_pos rfl, if_neg (by omega), if_neg (by omega), if_neg (by omega),
          hcb1, hcb2, hcb3] at hfalse
        rw [hcb0] at hbytene
        rw [decode4_eq _ _ _ _ hw (hcperc 8) (hcperc 16) (hcperc 24),
          Nat.shiftRight_eq_div_pow, Nat.shiftRight_eq_div_pow,
          Nat.shiftRight_eq_div_pow] at hfalse
        norm_num at hfalse
        omega
      · rw [if_neg (by omega), if_pos rfl, if_neg (by omega), if_neg (by omega),
          hcb0, hcb2, hcb3] at hfalse
        rw [hcb1, Nat.shiftRight_eq_div_pow] at hbytene
        rw [decode4_eq _ _ _ _ (by omega) hw (hcperc 16) (hcperc 24),
          Nat.shiftRight_eq_div_pow, Nat.shiftRight_eq_div_pow] at hfalse
        norm_num at hfalse
        omega
      · rw [if_neg (by omega), if_neg (by omega), if_pos rfl, if_neg (by omega),
          hcb0, hcb1, hcb3] at hfalse
        rw [hcb2, Nat.shiftRight_eq_div_pow] at hbytene
        rw [decode4_eq _ _ _ _ (by omega) (hcperc 8) hw (hcperc 24),
          Nat.shiftRight_eq_div_pow, Nat.shiftRight_eq_div_pow] at hfalse
        norm_num at hfalse
        omega
      · rw [if_neg (by omega), if_neg (by omega), if_neg (by omega), if_pos rfl,
          hcb0, hcb1, hcb2] at hfalse
        rw [hcb3, Nat.shiftRight_eq_div_pow] at hbytene
        rw [decode4_eq _ _ _ _ (by omega) (hcperc 8) (hcperc 16) hw,
          Nat.shiftRight_eq_div_pow, Nat.shiftRight_eq_div_pow] at hfalse
        norm_num at hfalse
        omega

theorem combineWithIntegrity_detects_mutation
    (secret : List Nat) (parts threshold : Int) (rand : List (List Nat))
    (ishares : List (List Nat)) (idx k w : Nat) (parts2 : List (List Nat))
    (hsecne : secret ≠ []) (hsecb : ∀ y ∈ secret, y < 256)
    (hp2 : 2 ≤ parts) (hp255 : parts ≤ 255)
    (ht2 : 2 ≤ threshold) (htp : threshold ≤ parts)
    (hrlen : ∀ r ∈ rand, r.length = secret.length)
    (hrb : ∀ r ∈ rand, ∀ y ∈ r, y < 256)
    (hok : SplitWithIntegrity secret parts threshold rand = .ok ishares)
    (hidx : idx < parts.toNat)
    (hk1 : 1 ≤ k) (hk : k < (ishares.getD idx []).length)
    (hw : w < 256) (hne : w ≠ (ishares.getD idx []).getD k 0)
    (hmem : (ishares.getD idx []).set k w ∈ parts2) (h2len : 2 ≤ parts2.length) :
    CombineWithIntegrity parts2 = .error .integrityCheckFailed := by
  have hL1 : 1 ≤ secret.length := List.length_pos.mpr hsecne
  rw [SplitWithIntegrity, SplitWith_eq_ok secret parts threshold rand hsecne hp2 hp255 ht2 htp]
    at hok
  have hishares : ishares = ((List.range parts.toNat).map fun i =>
      (i + 1) :: gfPolyEvalSlice (List.replicate secret.length 0)
        (secret :: rand.take (threshold.toNat - 1)) (i + 1)).map addIntegrityCheck :=
    (Except.ok.inj hok).symm
  set coeffs := secret :: rand.take (threshold.toNat - 1) with hcoeffs
  set payload : Nat → List Nat := fun i =>
    gfPolyEvalSlice (List.replicate secret.length 0) coeffs (i + 1) with hpayload
  have hcoeffs_len : ∀ c ∈ coeffs, c.length = (List.replicate secret.length 0).length := by
    intro c hc
    rw [List.length_replicate]
    rcases List.mem_cons.mp hc with h | h
    · rw [h]
    · exact hrlen c (List.mem_of_mem_take h)
  have hcoeffs_b : ∀ c ∈ coeffs, ∀ y ∈ c, y < 256 := by
    intro c hc
    rcases List.mem_cons.mp hc with h | h
    · rw [h]; exact hsecb
    · exact hrb c (List.mem_of_mem_take h)
  have hd0 : ∀ y ∈ List.replicate secret.length 0, y < 256 := by
    intro y hy
    rw [List.eq_of_mem_replicate hy]
    omega
  have hpayload_len : (payload idx).length = secret.length := by
    rw [hpayload]
    rw [length_gfPolyEvalSlice _ _ _ hcoeffs_len, List.length_replicate]
  have hpayload_b : ∀ y ∈ payload idx, y < 256 :=
    mem_gfPolyEvalSlice_lt _ _ _ hd0 hcoeffs_b
  have hbase : ishares.getD idx [] = addIntegrityCheck ((idx + 1) :: payload idx) := by
    rw [hishares, List.map_map, getD_range_map _ _ hidx]
    rfl
  set base := (idx + 1) :: payload idx with hbasedef
  have hblen : 2 ≤ base.length := by
    rw [hbasedef, List.length_cons, hpayload_len]
    omega
  have hbb : ∀ y ∈ base, y < 256 := by
    intro y hy
    rcases List.mem_cons.mp hy with h | h
    · rw [h]; omega
    · exact hpayload_b y h
  have hilen : (ishares.getD idx []).length = base.length + 4 := by
    rw [hbase, addIntegrityCheck_eq base hblen, List.length_append]
    rfl
  have hverr : validateIntegrityCheck ((ishares.getD idx []).set k w)
      = .error .integrityCheckFailed := by
    rw [hbase]
    exact validateIntegrityCheck_mutated base k w hblen hbb hk1
      (by rw [← hilen]; exact hk) hw (by rw [← hbase]; exact hne)
  rw [CombineWithIntegrity, if_neg (by omega), validateAll_error_of_mem hmem hverr]

deriving instance DecidableEq for Except

/-! ### The claims -/

/-- Claim C1: for every non-empty byte secret, every valid pair
`2 ≤ threshold ≤ parts ≤ 255`, every choice of random coefficient
buffers consumed by `Split`, and every selection of at least
`threshold` pairwise-distinct positions among the returned shares,
`Combine` applied to the selected shares returns exactly the original
secret; in particular every threshold-subset and every larger subset
yields the identical result. -/
theorem c1_combine_split_subset
    (secret : List Nat) (parts threshold : Int) (rand : List (List Nat))
    (shares : List (List Nat)) (sel : List Nat)
    (hsecne : secret ≠ []) (hsecb : ∀ y ∈ secret, y < 256)
    (hp2 : 2 ≤ parts) (hp255 : parts ≤ 255)
    (ht2 : 2 ≤ threshold) (htp : threshold ≤ parts)
    (hrlen : ∀ r ∈ rand, r.length = secret.length)
    (hrb : ∀ r ∈ rand, ∀ y ∈ r, y < 256)
    (hrcount : rand.length = threshold.toNat - 1)
    (hok : SplitWith secret parts threshold rand = .ok shares)
    (hnodup : sel.Nodup) (hselbd : ∀ i ∈ sel, i < parts.toNat)
    (hselcard : threshold.toNat ≤ sel.length) :
    Combine (sel.map fun i => shares.getD i []) = .ok secret :=
  combine_split_subset secret parts threshold rand shares sel hsecne hsecb hp2 hp255
    ht2 htp hrlen hrb hrcount hok hnodup hselbd hselcard

theorem c1_witness :
    Combine ([0, 1].map fun i => [[1, 4], [2, 11]].getD i []) = .ok [1] :=
  c1_combine_split_subset [1] 2 2 [[5]] [[1, 4], [2, 11]] [0, 1]
    (by decide) (by decide) (by decide) (by decide) (by decide) (by decide)
    (by decide) (by decide) (by decide) (by decide) (by decide) (by decide)
    (by decide)

/-- Claim C2, counterexample to the claim as stated: mutating the
x-coordinate byte at index 0 of an integrity-checked share is not
detected.  Splitting the secret `[1]` with `parts = 2`, `threshold = 2`
and random coefficient buffer `[1]` yields the integrity-checked shares
below; overwriting byte 0 of the first share with 3 passes every
checksum comparison and `CombineWithIntegrity` returns the wrong secret
`[5]` instead of the integrity-check error. -/
theorem c2_counterexample :
    SplitWithIntegrity [1] 2 2 [[1]]
      = .ok [[1, 0, 141, 239, 2, 210], [2, 3, 55, 190, 11, 75]] ∧
    [1, 0, 141, 239, 2, 210].set 0 3 = [3, 0, 141, 239, 2, 210] ∧
    CombineWithIntegrity [[3, 0, 141, 239, 2, 210], [2, 3, 55, 190, 11, 75]]
      = .ok [5] ∧
    ([5] : List Nat) ≠ [1] :=
  ⟨by decide, by decide, by decide, by decide⟩

/-- Claim C2 as amended: for every integrity-checked share produced by
`SplitWithIntegrity`, mutating any single byte of that share at an
index other than 0 (any payload byte or any of the 4 trailing checksum
bytes) causes `CombineWithIntegrity` on any share list (of at least 2
shares) containing the mutated share to return the integrity-check
error; the x-coordinate byte at index 0 is not covered by the checksum
(see the counterexample). -/
theorem c2_amended_mutation_detected
    (secret : List Nat) (parts threshold : Int) (rand : List (List Nat))
    (ishares : List (List Nat)) (idx k w : Nat) (parts2 : List (List Nat))
    (hsecne : secret ≠ []) (hsecb : ∀ y ∈ secret, y < 256)
    (hp2 : 2 ≤ parts) (hp255 : parts ≤ 255)
    (ht2 : 2 ≤ threshold) (htp : threshold ≤ parts)
    (hrlen : ∀ r ∈ rand, r.length = secret.length)
    (hrb : ∀ r ∈ rand, ∀ y ∈ r, y < 256)
    (hok : SplitWithIntegrity secret parts threshold rand = .ok ishares)
    (hidx : idx < parts.toNat)
    (hk1 : 1 ≤ k) (hk : k < (ishares.getD idx []).length)
    (hw : w < 256) (hne : w ≠ (ishares.getD idx []).getD k 0)
    (hmem : (ishares.getD idx []).set k w ∈ parts2) (h2len : 2 ≤ parts2.length) :
    CombineWithIntegrity parts2 = .error .integrityCheckFailed :=
  combineWithIntegrity_detects_mutation secret parts threshold rand ishares idx k w
    parts2 hsecne hsecb hp2 hp255 ht2 htp hrlen hrb hok hidx hk1 hk hw hne hmem h2len

theorem c2_witness :
    CombineWithIntegrity [[1, 1, 141, 239, 2, 210], [2, 3, 55, 190, 11, 75]]
      = .error .integrityCheckFailed :=
  c2_amended_mutation_detected [1] 2 2 [[1]]
    [[1, 0, 141, 239, 2, 210], [2, 3, 55, 190, 11, 75]] 0 1 1
    [[1, 1, 141, 239, 2, 210], [2, 3, 55, 190, 11, 75]]
    (by decide) (by decide) (by decide) (by decide) (by decide) (by decide)
    (by decide) (by decide) (by decide) (by decide) (by decide) (by decide)
    (by decide) (by decide) (by decide) (by decide)

/-- Claim C3: for every byte `a` and every nonzero byte `b`,
`gfDiv (gfMult a b) b = a`, with all operations over the GF(256)
exp/log lookup tables built at initialization. -/
theorem c3_gfDiv_gfMult_cancel (a b : Nat) (ha : a < 256) (hb : b < 256)
    (hb0 : b ≠ 0) : gfDiv (gfMult a b) b = a :=
  gfDiv_gfMult_cancel ha hb hb0

theorem c3_witness : gfDiv (gfMult 7 9) 9 = 7 :=
  c3_gfDiv_gfMult_cancel 7 9 (by decide) (by decide) (by decide)

/-- Claim C4: `Split` fails exactly when a precondition is violated
(empty secret, `parts < 2`, `parts > 255`, `threshold < 2` or
`threshold > parts`), and succeeds on every input satisfying all the
preconditions (the random source, modelled by the explicit `rand`
argument, always succeeds). -/
theorem c4_splitWith_error_characterization (secret : List Nat)
    (parts threshold : Int) (rand : List (List Nat)) :
    ((∃ e, SplitWith secret parts threshold rand = .error e) ↔
      secret = [] ∨ parts < 2 ∨ 255 < parts ∨ threshold < 2 ∨ parts < threshold) ∧
    (¬(secret = [] ∨ parts < 2 ∨ 255 < parts ∨ threshold < 2 ∨ parts < threshold) →
      ∃ shares, SplitWith secret parts threshold rand = .ok shares) := by
  refine ⟨splitWith_error_iff_aux secret parts threshold rand, ?_⟩
  intro h
  cases hc : SplitWith secret parts threshold rand with
  | error e =>
    exact absurd ((splitWith_error_iff_aux secret parts threshold rand).mp ⟨e, hc⟩) h
  | ok s => exact ⟨s, rfl⟩

theorem c4_witness :
    (∃ e, SplitWith [1] 1 1 [] = .error e) ∧
    (∃ shares, SplitWith [1] 5 3 [[7], [9]] = .ok shares) :=
  ⟨(c4_splitWith_error_characterization [1] 1 1 []).1.mpr (by omega),
    (c4_splitWith_error_characterization [1] 5 3 [[7], [9]]).2 (by
      rintro (h | h | h | h | h)
      · cases h
      all_goals omega)⟩

/-- Claim C5: `Combine` fails exactly when the share list is
structurally invalid (fewer than 2 shares, a share whose length differs
from the first share's, a share shorter than 2 bytes, or two shares
with the same x-coordinate byte), and on every share list satisfying
all these conditions it returns a secret without error. -/
theorem c5_combine_error_characterization (parts : List (List Nat)) :
    ((∃ e, Combine parts = .error e) ↔
      parts.length < 2 ∨ (∃ p ∈ parts, p.length ≠ (parts.headD []).length) ∨
        (∃ p ∈ parts, p.length < 2) ∨
        (∃ j k, j < parts.length ∧ k < parts.length ∧ j < k ∧
          (parts.getD j []).getD 0 0 = (parts.getD k []).getD 0 0)) ∧
    (¬(parts.length < 2 ∨ (∃ p ∈ parts, p.length ≠ (parts.headD []).length) ∨
        (∃ p ∈ parts, p.length < 2) ∨
        (∃ j k, j < parts.length ∧ k < parts.length ∧ j < k ∧
          (parts.getD j []).getD 0 0 = (parts.getD k []).getD 0 0)) →
      ∃ s, Combine parts = .ok s) := by
  refine ⟨combine_error_iff_aux parts, ?_⟩
  intro h
  cases hc : Combine parts with
  | error e => exact absurd ((combine_error_iff_aux parts).mp ⟨e, hc⟩) h
  | ok s => exact ⟨s, rfl⟩

theorem c5_witness :
    (∃ e, Combine [[1, 10]] = .error e) ∧
    (∃ s, Combine [[1, 10], [2, 20]] = .ok s) := by
  constructor
  · exact (c5_combine_error_characterization [[1, 10]]).1.mpr (Or.inl (by decide))
  · apply (c5_combine_error_characterization [[1, 10], [2, 20]]).2
    rintro (h | ⟨p, hp, hne⟩ | ⟨p, hp, hlt⟩ | ⟨j, k, hj, hk, hjk, heq⟩)
    · simp at h
    · fin_cases hp <;> simp_all
    · fin_cases hp <;> simp_all
    · simp only [List.length_cons, List.length_nil] at hj hk
      interval_cases j <;> interval_cases k <;>
        first
        | omega
        | exact absurd heq (by decide)

/-- Claim C6: on every share list accepted by `Combine`'s validation
(at least 2 byte shares, equal lengths of at least 2, pairwise-distinct
x-coordinate bytes), every denominator computed by the interpolation
loop is a nonzero field element, so the `denominator == 0` skip branch
is never taken and the division-by-zero branch of `gfDiv` is
unreachable from `Combine`. -/
theorem c6_lagrange_denominators_nonzero (parts : List (List Nat))
    (h2 : 2 ≤ parts.length) (hhead : 2 ≤ (parts.headD []).length)
    (hlen : ∀ p ∈ parts, p.length = (parts.headD []).length)
    (hb : ∀ p ∈ parts, ∀ y ∈ p, y < 256)
    (hdup : hasDuplicateXCoord (parts.map fun p => p.getD 0 0) = false) :
    ∀ i, i < (parts.map fun p => p.getD 0 0).length →
      lagrangeDenomAt (parts.map fun p => p.getD 0 0) i ≠ 0 := by
  intro i hi
  have hxb : ∀ x ∈ parts.map fun p => p.getD 0 0, x < 256 := by
    intro x hx
    obtain ⟨p, hp, hpe⟩ := List.mem_map.mp hx
    rw [← hpe]
    exact getD_lt_256 (hb p hp) 0
  apply lagrangeDenomAt_ne_zero _ hxb i hi
  rw [hasDuplicateXCoord_eq_false_iff] at hdup
  intro j k hj hk hjk
  rcases Nat.lt_or_ge j k with hlt | hge
  · exact hdup j k hj hk hlt
  · have hkj : k < j := by omega
    intro he
    exact hdup k j hk hj hkj he.symm

theorem c6_witness :
    lagrangeDenomAt ([[1, 10], [2, 20]].map fun p => p.getD 0 0) 0 ≠ 0 :=
  c6_lagrange_denominators_nonzero [[1, 10], [2, 20]] (by decide) (by decide)
    (by decide) (by decide) (by decide) 0 (by decide)

/-- Claim C7: for every non-empty secret and valid parameters, `Split`
returns exactly `parts` shares, every share has length
`len(secret) + 1`, and the share at position `i` carries x-coordinate
byte `i + 1`, so the x-coordinates are exactly the dense range
`1..parts`: pairwise distinct and never 0. -/
theorem c7_split_share_shape
    (secret : List Nat) (parts threshold : Int) (rand : List (List Nat))
    (shares : List (List Nat))
    (hsecne : secret ≠ [])
    (hp2 : 2 ≤ parts) (hp255 : parts ≤ 255)
    (ht2 : 2 ≤ threshold) (htp : threshold ≤ parts)
    (hrlen : ∀ r ∈ rand, r.length = secret.length)
    (hok : SplitWith secret parts threshold rand = .ok shares) :
    shares.length = parts.toNat ∧
    (∀ s ∈ shares, s.length = secret.length + 1) ∧
    shares.map (fun s => s.getD 0 0) = (List.range parts.toNat).map (fun i => i + 1) := by
  rw [SplitWith_eq_ok secret parts threshold rand hsecne hp2 hp255 ht2 htp] at hok
  have hsh := (Except.ok.inj hok).symm
  subst hsh
  have hcoeffs_len : ∀ c ∈ secret :: rand.take (threshold.toNat - 1),
      c.length = (List.replicate secret.length 0).length := by
    intro c hc
    rw [List.length_replicate]
    rcases List.mem_cons.mp hc with h | h
    · rw [h]
    · exact hrlen c (List.mem_of_mem_take h)
  refine ⟨by simp, ?_, ?_⟩
  · intro s hs
    obtain ⟨i, _, hie⟩ := List.mem_map.mp hs
    rw [← hie, List.length_cons, length_gfPolyEvalSlice _ _ _ hcoeffs_len,
      List.length_replicate]
  · rw [List.map_map]
    apply List.map_congr_left
    intro i _
    rfl

theorem c7_witness :
    ([[1, 4], [2, 11]] : List (List Nat)).length = (2 : Int).toNat ∧
    (∀ s ∈ ([[1, 4], [2, 11]] : List (List Nat)), s.length = [1].length + 1) ∧
    ([[1, 4], [2, 11]] : List (List Nat)).map (fun s => s.getD 0 0)
      = (List.range (2 : Int).toNat).map (fun i => i + 1) :=
  c7_split_share_shape [1] 2 2 [[5]] [[1, 4], [2, 11]]
    (by decide) (by decide) (by decide) (by decide) (by decide) (by decide)
    (by decide)

/-- Claim C8: the vectorized polynomial evaluation equals the scalar one
pointwise: for every non-empty list of equal-length byte coefficient
buffers, every point `x`, and every index `k` within the buffer length,
the destination produced by `gfPolyEvalSlice` satisfies
`dst[k] = gfPolyEval [coeffs[0][k], ..., coeffs[t-1][k]] x`. -/
theorem c8_gfPolyEvalSlice_pointwise (dst : List Nat) (coeffs : List (List Nat))
    (x k : Nat) (hne : coeffs ≠ [])
    (hlen : ∀ c ∈ coeffs, c.length = dst.length)
    (hd : ∀ y ∈ dst, y < 256) (hb : ∀ c ∈ coeffs, ∀ y ∈ c, y < 256)
    (hk : k < dst.length) :
    (gfPolyEvalSlice dst coeffs x).getD k 0
      = gfPolyEval (coeffs.map fun c => c.getD k 0) x :=
  gfPolyEvalSlice_getD dst coeffs x k hne hlen hd hb hk

theorem c8_witness :
    (gfPolyEvalSlice [0] [[1], [5]] 2).getD 0 0 = gfPolyEval [1, 5] 2 :=
  c8_gfPolyEvalSlice_pointwise [0] [[1], [5]] 2 0 (by decide) (by decide)
    (by decide) (by decide) (by decide)

/-- Claim C9: `CombineSecure` returns `ErrInsufficientShares` before
attempting reconstruction whenever `expectedThreshold > 0` and fewer
shares than that are supplied; and on success every input share buffer
is entirely overwritten with zero bytes (returned as the second
component of the result, since Go mutates the caller's buffers in
place). -/
theorem c9_combineSecure_spec (parts : List (List Nat)) (expectedThreshold : Int) :
    ((0 < expectedThreshold ∧ (parts.length : Int) < expectedThreshold) →
      CombineSecure parts expectedThreshold = .error .insufficientShares) ∧
    (∀ secret zeroed, CombineSecure parts expectedThreshold = .ok (secret, zeroed) →
      ∀ s ∈ zeroed, ∀ y ∈ s, y = 0) := by
  constructor
  · intro h
    rw [CombineSecure, if_pos h]
  · intro secret zeroed hok
    rw [CombineSecure] at hok
    split at hok
    · cases hok
    · cases hcomb : Combine parts with
      | error e =>
        rw [hcomb] at hok
        cases hok
      | ok s =>
        rw [hcomb] at hok
        have hpair := Except.ok.inj hok
        have hz : zeroed = parts.map secureOverwriteSlice :=
          (congrArg Prod.snd hpair).symm
        intro s2 hs2 y hy
        rw [hz] at hs2
        obtain ⟨p, hp, hpe⟩ := List.mem_map.mp hs2
        rw [← hpe] at hy
        exact List.eq_of_mem_replicate hy

theorem c9_witness :
    CombineSecure [[1, 10], [2, 20]] 3 = .error .insufficientShares :=
  (c9_combineSecure_spec [[1, 10], [2, 20]] 3).1 (by decide)

/-- Claim C10: every share shorter than 6 bytes is returned unchanged by
`validateIntegrityCheck` with no error and no checksum comparison, so
`CombineWithIntegrity` passes such shares directly to `Combine` (when at
least 2 shares are supplied; with fewer it rejects before validating). -/
theorem c10_short_share_passthrough :
    (∀ share : List Nat, share.length < 6 → validateIntegrityCheck share = .ok share) ∧
    (∀ parts : List (List Nat), (∀ p ∈ parts, p.length < 6) → 2 ≤ parts.length →
      CombineWithIntegrity parts = Combine parts) := by
  constructor
  · intro share h
    rw [validateIntegrityCheck, if_pos h]
  · intro parts hshort h2
    rw [CombineWithIntegrity, if_neg (by omega), validateAll_ok_of_short hshort]

theorem c10_witness :
    validateIntegrityCheck [1, 2] = .ok [1, 2] ∧
    CombineWithIntegrity [[1, 2, 3], [2, 3, 4]] = Combine [[1, 2, 3], [2, 3, 4]] :=
  ⟨c10_short_share_passthrough.1 [1, 2] (by decide),
    c10_short_share_passthrough.2 [[1, 2, 3], [2, 3, 4]] (by decide) (by decide)⟩

end Shamir
